import Mathlib

/-!
# Verification of the knope Release Engine core

This file gives a shallow embedding, in Lean 4, of the core of the `knope`
(née `dobby`) release-automation tool, and proves properties of it.

The embedding covers:

* a model of `serde_json` values, parsing and pretty-printing (with the
  `preserve_order` feature, i.e. objects are ordered maps), used by
  `src/releases/package_json.rs`;
* the `get_version` / `set_version` functions of `src/releases/package_json.rs`;
* the dry-run write sink (`crate::fs`), modelled from the specification;
* the semantic-version resolver, package consistency checker and changelog
  builder, modelled from the specification (their sources are not part of the
  visible tree; the integration tests `tests/prerelease.rs` and
  `tests/prerelease_after_normal_release.rs` pin the end-to-end behaviour).

Modelling notes for the JSON embedding:

* JSON numbers are modelled as integers; floating-point literals (fractions
  and exponents) are outside the model, as are `\uXXXX` surrogate pairs.
* Objects are ordered lists of key/value pairs; the raw parse keeps duplicate
  keys in source order, and `canonObj` applies the `IndexMap` insertion
  semantics of `serde_json`'s `preserve_order` map (last value wins, first
  position kept) used by `from_str::<Map<String, Value>>`.
-/

namespace Knope

mutual

inductive Json where
  | null : Json
  | bool (b : Bool) : Json
  | num (n : Int) : Json
  | str (s : String) : Json
  | arr (elems : JList) : Json
  | obj (fields : JFields) : Json
deriving DecidableEq

inductive JList where
  | nil : JList
  | cons (hd : Json) (tl : JList) : JList
deriving DecidableEq

inductive JFields where
  | nil : JFields
  | cons (key : String) (val : Json) (tl : JFields) : JFields
deriving DecidableEq

end

/-- Hex digit characters, lower-case, as used by `serde_json`'s `\u00XX'
escapes. -/
def hexDigitChar (n : Nat) : Char :=
  if n < 10 then Char.ofNat (48 + n) else Char.ofNat (87 + n)

/-- How `serde_json` escapes a single character inside a JSON string:
`"` and `\` are escaped, control characters use the short escapes
`\b \t \n \f \r` where available and `\u00XX` otherwise; everything else is
emitted verbatim. -/
def escapeChar (c : Char) : List Char :=
  if c = '"' then ['\\', '"']
  else if c = '\\' then ['\\', '\\']
  else if c = '\x08' then ['\\', 'b']
  else if c = '\x09' then ['\\', 't']
  else if c = '\x0a' then ['\\', 'n']
  else if c = '\x0c' then ['\\', 'f']
  else if c = '\x0d' then ['\\', 'r']
  else if c.toNat < 32 then
    ['\\', 'u', '0', '0', hexDigitChar (c.toNat / 16), hexDigitChar (c.toNat % 16)]
  else [c]

/-- A JSON string literal: opening quote, escaped characters, closing quote. -/
def printString (s : String) : List Char :=
  '"' :: (s.data.map escapeChar).flatten ++ ['"']

/-- Decimal digits of `n`, most significant first, empty for `0`; the first
argument is structural fuel (`n` itself is enough). -/
def natToCharsAux : Nat → Nat → List Char
  | 0, _ => []
  | fuel + 1, n =>
    if n = 0 then []
    else natToCharsAux fuel (n / 10) ++ [Char.ofNat (48 + n % 10)]

/-- Decimal representation of a natural number. -/
def natToChars (n : Nat) : List Char :=
  if n = 0 then ['0'] else natToCharsAux n n

/-- Decimal representation of an integer, as `serde_json` prints integers. -/
def intToChars (n : Int) : List Char :=
  if n < 0 then '-' :: natToChars n.natAbs else natToChars n.toNat

/-- `n` spaces: the indentation emitted by `serde_json`'s pretty printer. -/
def spaces (n : Nat) : List Char := List.replicate n ' '

/-- The separator emitted after an array element: nothing after the last
element, comma-newline-indent otherwise. -/
def sepElems (ind : Nat) : JList → List Char
  | .nil => []
  | .cons _ _ => ',' :: '\n' :: spaces ind

/-- The separator emitted after an object field: nothing after the last
field, comma-newline-indent otherwise. -/
def sepFields (ind : Nat) : JFields → List Char
  | .nil => []
  | .cons _ _ _ => ',' :: '\n' :: spaces ind

/-- The characters of the `null` keyword, as the formatter emits them. -/
def litNullChars : List Char := ['n', 'u', 'l', 'l']

/-- The characters of the `true` keyword, as the formatter emits them. -/
def litTrueChars : List Char := ['t', 'r', 'u', 'e']

/-- The characters of the `false` keyword, as the formatter emits them. -/
def litFalseChars : List Char := ['f', 'a', 'l', 's', 'e']

mutual

/-- `serde_json::to_string_pretty` on a value, at indentation level `ind`
(two-space indentation, as in the pretty formatter's default). -/
def printVal (ind : Nat) : Json → List Char
  | .null => litNullChars
  | .bool true => litTrueChars
  | .bool false => litFalseChars
  | .num n => intToChars n
  | .str s => printString s
  | .arr l =>
    if l = .nil then ['[', ']']
    else '[' :: '\n' :: spaces (ind + 2) ++ printElems (ind + 2) l
      ++ '\n' :: spaces ind ++ [']']
  | .obj f =>
    if f = .nil then ['\x7b', '\x7d']
    else '\x7b' :: '\n' :: spaces (ind + 2) ++ printFields (ind + 2) f
      ++ '\n' :: spaces ind ++ ['\x7d']

/-- Array elements, comma-and-newline separated, each line indented `ind`
(the indentation of the first element is emitted by the caller). -/
def printElems (ind : Nat) : JList → List Char
  | .nil => []
  | .cons h t => printVal ind h ++ sepElems ind t ++ printElems ind t

/-- Object fields, `"key": value`, comma-and-newline separated (the
indentation of the first field is emitted by the caller). -/
def printFields (ind : Nat) : JFields → List Char
  | .nil => []
  | .cons k v t =>
    printString k ++ ':' :: ' ' :: printVal ind v
      ++ sepFields ind t ++ printFields ind t

end

/-! ## The JSON parser

A recursive-descent parser for the JSON language accepted by
`serde_json::from_str`, restricted to integer numbers (no fractions or
exponents) and to non-surrogate `\uXXXX` escapes.  Recursion over nested
values is by structural fuel; `parseJson` supplies fuel exceeding the input
length, which is always sufficient because every recursive call consumes at
least one character first. -/

/-- JSON insignificant whitespace, as accepted by `serde_json`. -/
def isWsChar (c : Char) : Bool :=
  c = ' ' || c = '\t' || c = '\n' || c = '\r'

/-- Drop leading insignificant whitespace. -/
def skipWs : List Char → List Char
  | [] => []
  | c :: cs => if isWsChar c then skipWs cs else c :: cs

/-- Numeric value of a hexadecimal digit character. -/
def hexVal (c : Char) : Option Nat :=
  if '0' ≤ c ∧ c ≤ '9' then some (c.toNat - 48)
  else if 'a' ≤ c ∧ c ≤ 'f' then some (c.toNat - 87)
  else if 'A' ≤ c ∧ c ≤ 'F' then some (c.toNat - 55)
  else none

/-- Prepend a decoded character to the first component of a string-body
parse result. -/
def consFst (c : Char) (r : Option (List Char × List Char)) :
    Option (List Char × List Char) :=
  r.map (fun p => (c :: p.1, p.2))

mutual

/-- The body of a JSON string, after the opening quote: unescapes until the
closing quote and returns the decoded characters and the rest of the input.
Raw control characters are rejected, as are invalid escapes; `\uXXXX` is
accepted for non-surrogate code points. -/
def parseStringBody : List Char → Option (List Char × List Char)
  | [] => none
  | c :: cs =>
    if c = '"' then some ([], cs)
    else if c = '\\' then parseEscape cs
    else if 32 ≤ c.toNat then consFst c (parseStringBody cs)
    else none

/-- A string escape sequence, after the backslash. -/
def parseEscape : List Char → Option (List Char × List Char)
  | [] => none
  | e :: cs2 =>
    if e = '"' then consFst '"' (parseStringBody cs2)
    else if e = '\\' then consFst '\\' (parseStringBody cs2)
    else if e = '/' then consFst '/' (parseStringBody cs2)
    else if e = 'b' then consFst '\x08' (parseStringBody cs2)
    else if e = 'f' then consFst '\x0c' (parseStringBody cs2)
    else if e = 'n' then consFst '\n' (parseStringBody cs2)
    else if e = 'r' then consFst '\x0d' (parseStringBody cs2)
    else if e = 't' then consFst '\t' (parseStringBody cs2)
    else if e = 'u' then
      match cs2 with
      | h1 :: h2 :: h3 :: h4 :: cs3 =>
        match hexVal h1, hexVal h2, hexVal h3, hexVal h4 with
        | some d1, some d2, some d3, some d4 =>
          let n := ((d1 * 16 + d2) * 16 + d3) * 16 + d4
          if n < 55296 ∨ 57344 ≤ n then consFst (Char.ofNat n) (parseStringBody cs3)
          else none
        | _, _, _, _ => none
      | _ => none
    else none

end

/-- Numeric value of a decimal digit character. -/
def digitVal (c : Char) : Nat := c.toNat - 48

/-- Consume a maximal run of decimal digits, extending the accumulator. -/
def takeDigits : List Char → Nat → Nat × List Char
  | [], acc => (acc, [])
  | c :: cs, acc =>
    if c.isDigit then takeDigits cs (acc * 10 + digitVal c) else (acc, c :: cs)

/-- The integer part of a JSON number: `0` on its own, or a nonzero leading
digit followed by more digits (JSON forbids redundant leading zeros). -/
def parseIntPart : List Char → Option (Nat × List Char)
  | [] => none
  | c :: cs =>
    if c = '0' then some (0, cs)
    else if c.isDigit then some (takeDigits cs (digitVal c)) else none

/-- A JSON integer literal with optional leading minus sign. -/
def parseNumber (cs : List Char) : Option (Json × List Char) :=
  match cs with
  | [] => none
  | c :: cs2 =>
    if c = '-' then (parseIntPart cs2).map (fun p => (.num (-(p.1 : Int)), p.2))
    else (parseIntPart (c :: cs2)).map (fun p => (.num ((p.1 : Int)), p.2))

/-- The keyword `null` (after its leading `n`). -/
def parseLitNull : List Char → Option (Json × List Char)
  | 'u' :: 'l' :: 'l' :: rest2 => some (.null, rest2)
  | _ => none

/-- The keyword `true` (after its leading `t`). -/
def parseLitTrue : List Char → Option (Json × List Char)
  | 'r' :: 'u' :: 'e' :: rest2 => some (.bool true, rest2)
  | _ => none

/-- The keyword `false` (after its leading `f`). -/
def parseLitFalse : List Char → Option (Json × List Char)
  | 'a' :: 'l' :: 's' :: 'e' :: rest2 => some (.bool false, rest2)
  | _ => none

mutual

/-- Parse one JSON value (after skipping leading whitespace), returning it
with the unconsumed remainder of the input. -/
def parseVal : Nat → List Char → Option (Json × List Char)
  | 0, _ => none
  | fuel + 1, cs =>
    match skipWs cs with
    | [] => none
    | c :: rest =>
      if c = '\x7b' then
        match skipWs rest with
        | [] => none
        | d :: rest2 =>
          if d = '\x7d' then some (.obj .nil, rest2)
          else (parseFields fuel (d :: rest2)).map (fun p => (.obj p.1, p.2))
      else if c = '[' then
        match skipWs rest with
        | [] => none
        | d :: rest2 =>
          if d = ']' then some (.arr .nil, rest2)
          else (parseElems fuel (d :: rest2)).map (fun p => (.arr p.1, p.2))
      else if c = '"' then
        (parseStringBody rest).map (fun p => (.str (String.mk p.1), p.2))
      else if c = 'n' then parseLitNull rest
      else if c = 't' then parseLitTrue rest
      else if c = 'f' then parseLitFalse rest
      else if c = '-' ∨ c.isDigit then parseNumber (c :: rest)
      else none

/-- Parse a nonempty comma-separated list of object fields, up to and
including the closing brace.  The input must already be positioned at the
opening quote of the first key. -/
def parseFields : Nat → List Char → Option (JFields × List Char)
  | 0, _ => none
  | fuel + 1, cs =>
    match cs with
    | [] => none
    | c :: cs2 =>
      if c = '"' then
        match parseStringBody cs2 with
        | none => none
        | some (k, cs3) =>
          match skipWs cs3 with
          | [] => none
          | d :: cs4 =>
            if d = ':' then
              match parseVal fuel cs4 with
              | none => none
              | some (v, cs5) =>
                match skipWs cs5 with
                | [] => none
                | e :: cs6 =>
                  if e = ',' then
                    (parseFields fuel (skipWs cs6)).map
                      (fun p => (.cons (String.mk k) v p.1, p.2))
                  else if e = '\x7d' then some (.cons (String.mk k) v .nil, cs6)
                  else none
            else none
      else none

/-- Parse a nonempty comma-separated list of array elements, up to and
including the closing bracket. -/
def parseElems : Nat → List Char → Option (JList × List Char)
  | 0, _ => none
  | fuel + 1, cs =>
    match parseVal fuel cs with
    | none => none
    | some (v, cs2) =>
      match skipWs cs2 with
      | [] => none
      | e :: cs3 =>
        if e = ',' then (parseElems fuel cs3).map (fun p => (.cons v p.1, p.2))
        else if e = ']' then some (.cons v .nil, cs3)
        else none

end

/-- `serde_json::from_str` on a whole document: one JSON value, possibly
surrounded by whitespace, consuming the entire input. -/
def parseJson (s : String) : Option Json :=
  match parseVal (s.length + 1) s.data with
  | some (j, rest) => if skipWs rest = [] then some j else none
  | none => none

/-- Every list of characters is or is not headed by a decimal digit; the
number parser must not run into such a digit after the printed literal. -/
def noDigitHead : List Char → Prop
  | [] => True
  | c :: _ => c.isDigit = false

/-- A list consisting only of insignificant whitespace. -/
def allWsChars (ws : List Char) : Prop := ∀ c ∈ ws, isWsChar c = true

mutual

/-- Fuel needed by `parseVal` to re-parse a printed value. -/
def jsizeJ : Json → Nat
  | .null => 1
  | .bool _ => 1
  | .num _ => 1
  | .str _ => 1
  | .arr l => 1 + jsizeL l
  | .obj f => 1 + jsizeF f

/-- Fuel needed by `parseElems` to re-parse printed array elements. -/
def jsizeL : JList → Nat
  | .nil => 1
  | .cons h t => 1 + jsizeJ h + jsizeL t

/-- Fuel needed by `parseFields` to re-parse printed object fields. -/
def jsizeF : JFields → Nat
  | .nil => 1
  | .cons _ v t => 1 + jsizeJ v + jsizeF t

end

/-! ## `serde_json` map semantics and `package.json` handling

`src/releases/package_json.rs` deserializes either into
`Map<String, Value>` (for `set_version`) or into the derived struct
`Package { version: String }` (for `get_version`).  With the
`preserve_order` feature, `Map` is an `IndexMap`: insertion of an existing
key replaces the value in place, insertion of a new key appends at the
end; duplicate keys in the source are resolved the same way while
deserializing.  The derived struct deserializer instead streams the
fields in source order, ignoring unknown fields and rejecting a
duplicated or non-string `version` field. -/

/-- `IndexMap::insert`: replace in place when the key exists, else append. -/
def insertFields : JFields → String → Json → JFields
  | .nil, k, v => .cons k v .nil
  | .cons k' v' t, k, v =>
    if k' = k then .cons k' v t else .cons k' v' (insertFields t k v)

/-- The keys of an object, in order. -/
def keysF : JFields → List String
  | .nil => []
  | .cons k _ t => k :: keysF t

/-- First value stored at a key, if any. -/
def lookupF : JFields → String → Option Json
  | .nil, _ => none
  | .cons k' v t, k => if k' = k then some v else lookupF t k

mutual

/-- Deserializing a raw parsed value as a `serde_json::Value` (with
`preserve_order`): nested objects receive the `IndexMap` duplicate-key
treatment. -/
def canonJson : Json → Json
  | .null => .null
  | .bool b => .bool b
  | .num n => .num n
  | .str s => .str s
  | .arr l => .arr (canonList l)
  | .obj f => .obj (canonGo .nil f)

/-- `canonJson` on every array element. -/
def canonList : JList → JList
  | .nil => .nil
  | .cons h t => .cons (canonJson h) (canonList t)

/-- Fold the raw fields into an `IndexMap`, left to right. -/
def canonGo : JFields → JFields → JFields
  | acc, .nil => acc
  | acc, .cons k v t => canonGo (insertFields acc k (canonJson v)) t

end

/-- Raw object fields deserialized as `Map<String, Value>`. -/
def canonObj (f : JFields) : JFields := canonGo .nil f

/-- The behavioural classes of `serde_json::Error` relevant here.
`invalidLength` is the derive's `Error::invalid_length` when a sequence
ends before the struct's fields are filled; `trailingChars` is
`ErrorCode::TrailingCharacters`, raised by `end_seq` when elements remain
after the derive's `visit_seq` stopped reading. -/
inductive ParseErr where
  | syntaxErr : ParseErr
  | invalidType : ParseErr
  | missingField : ParseErr
  | duplicateField : ParseErr
  | invalidLength : ParseErr
  | trailingChars : ParseErr
deriving DecidableEq

/-- The string carried by a JSON value, when it is a string. -/
def jsonAsString : Json → Option String
  | .str s => some s
  | _ => none

/-- The derived `Deserialize` for `struct Package { version: String }`:
stream the fields in source order, remembering whether `version` was seen;
unknown fields are ignored, a duplicate `version` is an error, a
non-string `version` is an error, a missing `version` is an error. -/
def packageVersionFields : JFields → Option String → Except ParseErr String
  | .nil, seen =>
    match seen with
    | some v => .ok v
    | none => .error .missingField
  | .cons k v t, seen =>
    if k = "version" then
      match seen with
      | some _ => .error .duplicateField
      | none =>
        match jsonAsString v with
        | some s => packageVersionFields t (some s)
        | none => .error .invalidType
    else packageVersionFields t seen

/-- The derive's `visit_seq` for `struct Package { version: String }`,
combined with `serde_json`'s sequence access: `deserialize_struct` also
accepts a JSON array, reading the struct's fields in declaration order.
`next_element::<String>()` requires the first element to be a string
(failing with an invalid-type error before anything else is looked at);
an empty array ends the sequence before field 0, an invalid-length
error; and once `visit_seq` returns, `end_seq` finds any remaining
element and raises a trailing-characters error. -/
def packageVersionSeq : JList → Except ParseErr String
  | .nil => .error .invalidLength
  | .cons v .nil =>
    match jsonAsString v with
    | some s => .ok s
    | none => .error .invalidType
  | .cons v (.cons _ _) =>
    match jsonAsString v with
    | some _ => .error .trailingChars
    | none => .error .invalidType

/-- `serde_json::from_str::<Package>` on a document: `deserialize_struct`
dispatches on the leading token, taking the map path on `{`, the sequence
path on `[`, and an invalid-type error on any other value. -/
def deserializePackage (content : String) : Except ParseErr String :=
  match parseJson content with
  | none => .error .syntaxErr
  | some (.obj f) => packageVersionFields f none
  | some (.arr l) => packageVersionSeq l
  | some _ => .error .invalidType

/-- The error enum of `src/releases/package_json.rs` (`Error`): the
`Deserialize` and `Serialize` variants carry the offending path and the
underlying `serde_json` error; `Fs` wraps a write failure. -/
inductive PJError where
  | deserialize (path : String) (source : ParseErr)
  | fsErr
  | serialize (path : String)
deriving DecidableEq

/-- The `#[diagnostic(help(...))]` text attached to each error variant in
`src/releases/package_json.rs`. -/
def helpText : PJError → String
  | .deserialize _ _ =>
    "knope expects the package.json file to be an object with a top level `version` property"
  | .fsErr => ""
  | .serialize _ =>
    "This is likely a bug, please report it at https://github.com/knope-dev/knope"

/-- `get_version` from `src/releases/package_json.rs`: deserialize the
content as `Package` and return its `version`, wrapping any failure in
`Error::Deserialize` together with the offending path. -/
def get_version (content : String) (path : String) : Except PJError String :=
  (deserializePackage content).mapError (fun e => PJError.deserialize path e)

/-! ## The write sink and `set_version` -/

/-- The two execution modes of the threaded context (`state::RunType`):
`real` persists mutations, `dryRun` redirects them to a capturing sink. -/
inductive RunMode where
  | real : RunMode
  | dryRun : RunMode
deriving DecidableEq

/-- The world visible to the write sink: an association list of file
contents by path, plus the lines captured by the dry-run sink. -/
structure FsState where
  files : List (String × String)
  sink : List String
deriving DecidableEq

/-- Store `contents` at `path`, replacing any previous content. -/
def writeFileMap : List (String × String) → String → String → List (String × String)
  | [], path, contents => [(path, contents)]
  | (p, c) :: t, path, contents =>
    if p = path then (p, contents) :: t else (p, c) :: writeFileMap t path contents

/-- Read the content stored at `path`. -/
def readFileMap : List (String × String) → String → Option String
  | [], _ => none
  | (p, c) :: t, path => if p = path then some c else readFileMap t path

/-- Modelled from the spec: `crate::fs::write`, the Dry-Run Sink of §4.1
(its source is not under `src/`).  In `DryRun` mode it writes a one-line
human-readable statement naming the path and the intended version to the
captured sink and leaves every file untouched; in `Real` mode it persists
the content verbatim to the path. -/
def fsWrite (mode : RunMode) (st : FsState) (newVersion path contents : String) : FsState :=
  match mode with
  | .dryRun =>
    { st with sink := st.sink ++ ["would change " ++ path ++ " to version " ++ newVersion] }
  | .real => { st with files := writeFileMap st.files path contents }

/-- `set_version` from `src/releases/package_json.rs`: parse the content
as a `Map<String, Value>`, insert the new version at the `version` key,
pretty-print, and pass the result through the write sink.  The state is
threaded explicitly; on an error the incoming state is returned
untouched, mirroring the `?` early returns that precede the single
`fs::write` call.  (`serde_json::to_string_pretty` cannot fail on a
string-keyed `Map`, so the `Serialize` variant is never produced.) -/
def set_version (mode : RunMode) (st : FsState) (package_json : String)
    (new_version : String) (path : String) : Except PJError String × FsState :=
  match parseJson package_json with
  | none => (.error (.deserialize path .syntaxErr), st)
  | some (.obj f) =>
    let m := insertFields (canonObj f) "version" (.str new_version)
    let contents := String.mk (printVal 0 (.obj m))
    (.ok contents, fsWrite mode st new_version path contents)
  | some _ => (.error (.deserialize path .invalidType), st)

/-- An object whose keys are pairwise distinct, as produced by `Map`
deserialization. -/
def nodupKeys (f : JFields) : Prop := (keysF f).Nodup

/-! ## The semantic-version resolver (modelled from the spec)

The resolver's source (`src/releases/semver.rs`) is not part of the
visible tree; these definitions follow §3 and §4.3 of the specification,
with the integration tests pinning the end-to-end pre-release behaviour. -/

/-- Modelled from the spec: the `Version` data model of §3 —
`{major, minor, patch, pre: Option (label, number), build}`. -/
structure Version where
  major : Nat
  minor : Nat
  patch : Nat
  pre : Option (String × Nat)
  build : Option String
deriving DecidableEq

/-- Lexicographic comparison of two character lists. -/
def strLtChars : List Char → List Char → Bool
  | [], [] => false
  | [], _ :: _ => true
  | _ :: _, [] => false
  | a :: as, b :: bs => if a = b then strLtChars as bs else decide (a < b)

/-- Lexicographic comparison of two strings. -/
def strLt (a b : String) : Bool := strLtChars a.data b.data

/-- Modelled from the spec: ordering of pre-release components — absence
is greater than presence; between two pre-releases, label
lexicographically, then number. -/
def preLt : Option (String × Nat) → Option (String × Nat) → Bool
  | some _, none => true
  | none, _ => false
  | some (l1, n1), some (l2, n2) =>
    if l1 = l2 then decide (n1 < n2) else strLt l1 l2

/-- Modelled from the spec: the total order on versions of §3 — major,
then minor, then patch, then the pre-release order. -/
def ltv (a b : Version) : Bool :=
  if a.major ≠ b.major then decide (a.major < b.major)
  else if a.minor ≠ b.minor then decide (a.minor < b.minor)
  else if a.patch ≠ b.patch then decide (a.patch < b.patch)
  else preLt a.pre b.pre

/-- Modelled from the spec: the `Rule` values consumed by the resolver
(§3): `Major`, `Minor`, `Patch`, `Pre(label)` and `Release`. -/
inductive Rule where
  | major : Rule
  | minor : Rule
  | patch : Rule
  | pre (label : String) : Rule
  | release : Rule
deriving DecidableEq

/-- Decimal string of a natural number. -/
def natStr (n : Nat) : String := String.mk (natToChars n)

/-- Render a version as `major.minor.patch[-label.number][+build]`. -/
def versionToString (v : Version) : String :=
  natStr v.major ++ "." ++ natStr v.minor ++ "." ++ natStr v.patch
    ++ (match v.pre with
        | none => ""
        | some (l, n) => "-" ++ l ++ "." ++ natStr n)
    ++ (match v.build with
        | none => ""
        | some b => "+" ++ b)

/-- The step-level error taxonomy of `src/step.rs` (`StepError`),
restricted to the variants the Release Engine core can produce. -/
inductive StepError where
  | invalidPreReleaseVersion (v : String)
  | noRelease : StepError
  | invalidSemanticVersion (v : String)
  | noCurrentVersion : StepError
  | inconsistentVersions (a b : String)
  | versionedFile (e : PJError)
deriving DecidableEq

/-- Modelled from the spec: `bump(current, rule)` of §4.3.
`Major`/`Minor`/`Patch` do the standard increment, zeroing lower
components and clearing pre-release and build metadata.  `Pre(label)`
bumps patch and opens the series at 0 when there is no pre-release,
increments the numeric suffix when the label matches, and restarts the
series at 0 on the same `major.minor.patch` when the label differs.
`Release` strips an existing pre-release component. -/
def bump (v : Version) (r : Rule) : Except StepError Version :=
  match r with
  | .major => .ok ⟨v.major + 1, 0, 0, none, none⟩
  | .minor => .ok ⟨v.major, v.minor + 1, 0, none, none⟩
  | .patch => .ok ⟨v.major, v.minor, v.patch + 1, none, none⟩
  | .pre label =>
    match v.pre with
    | none => .ok ⟨v.major, v.minor, v.patch + 1, some (label, 0), none⟩
    | some (l, n) =>
      if l = label then .ok ⟨v.major, v.minor, v.patch, some (label, n + 1), none⟩
      else .ok ⟨v.major, v.minor, v.patch, some (label, 0), none⟩
  | .release =>
    match v.pre with
    | none => .error (.invalidPreReleaseVersion (versionToString v))
    | some _ => .ok ⟨v.major, v.minor, v.patch, none, none⟩

/-! ## The package consistency checker (modelled from the spec) -/

/-- Walk the remaining version strings, comparing each against the first
one found; the first mismatch is a hard error naming both values. -/
def currentVersionLoop (cur : String) : List String → Except StepError String
  | [] => .ok cur
  | v :: rest =>
    if v = cur then currentVersionLoop cur rest
    else .error (.inconsistentVersions v cur)

/-- Modelled from the spec: `current_version(package)` of §4.4 — reads
every member file's version (given here as the list of version strings the
adapters reported, in order); an empty set is `NoCurrentVersion`, agreement
returns the common version, and any two distinct values fail with
`InconsistentVersions` naming both. -/
def current_version : List String → Except StepError String
  | [] => .error .noCurrentVersion
  | v :: rest => currentVersionLoop v rest

/-! ## The changelog builder (modelled from the spec and the tests)

The builder's source (`src/releases/changelog.rs`) is not part of the
visible tree.  The document model follows §3; for the update operation the
spec's §4.5 "merge into the topmost same-series section" rule contradicts
the repository's own integration test (`tests/prerelease.rs` asserts that
line 4 of the updated changelog is the *new* bullet, which under
merge-with-append would be the retained old bullet), so `addRelease`
follows the tests — a new top section containing only the new entries is
always inserted above the existing sections — while `addReleaseSpecMerge`
transcribes the spec's words for comparison. -/

/-- Modelled from the spec: the change categories of §3. -/
inductive Category where
  | breaking : Category
  | feature : Category
  | fix : Category
  | other : Category
deriving DecidableEq

/-- Modelled from the spec: one classified unit of release-note content. -/
structure ChangeEntry where
  category : Category
  description : String
deriving DecidableEq

/-- Modelled from the spec: one version-headed changelog section, with the
fixed category order breaking, feature, fix, other. -/
structure ChangeSection where
  version : Version
  breaking : List String
  features : List String
  fixes : List String
  other : List String
deriving DecidableEq

/-- Descriptions of the entries in one category, in input order. -/
def entriesOf (cat : Category) (entries : List ChangeEntry) : List String :=
  (entries.filter (fun e => e.category = cat)).map (fun e => e.description)

/-- The section holding exactly the given entries under the target version. -/
def newSection (target : Version) (entries : List ChangeEntry) : ChangeSection :=
  ⟨target, entriesOf .breaking entries, entriesOf .feature entries,
    entriesOf .fix entries, entriesOf .other entries⟩

/-- Modelled from the spec: two versions belong to the same pre-release
series when they agree on `major.minor.patch` and both carry a pre-release
with the same label. -/
def sameSeries (a b : Version) : Bool :=
  a.major = b.major && a.minor = b.minor && a.patch = b.patch &&
    match a.pre, b.pre with
    | some (l1, _), some (l2, _) => l1 = l2
    | _, _ => false

/-- Modelled from the spec and the repository's integration tests: the
changelog update inserts a new top section containing only the new
entries; all existing sections, same series or not, are left unchanged
below it. -/
def addRelease (doc : List ChangeSection) (target : Version)
    (entries : List ChangeEntry) : List ChangeSection :=
  newSection target entries :: doc

/-- The spec's words for §4.5 (for comparison with `addRelease`): when the
target matches the topmost section's pre-release series, rewrite that
section's header to the target and append the new entries beneath the
retained ones, category by category; otherwise insert a new top section. -/
def addReleaseSpecMerge (doc : List ChangeSection) (target : Version)
    (entries : List ChangeEntry) : List ChangeSection :=
  match doc with
  | [] => [newSection target entries]
  | top :: rest =>
    if sameSeries target top.version then
      ⟨target, top.breaking ++ entriesOf .breaking entries,
        top.features ++ entriesOf .feature entries,
        top.fixes ++ entriesOf .fix entries,
        top.other ++ entriesOf .other entries⟩ :: rest
    else newSection target entries :: doc

/-- One category block: title line, then the bullets. -/
def renderCat (title : String) (bullets : List String) : List String :=
  if bullets.isEmpty then [] else title :: bullets.map (fun b => "- " ++ b)

/-- The lines of one section: `## <version>`, then the nonempty category
blocks in fixed order; every line is followed by a blank line, matching
the Keep-a-Changelog layout the integration tests assert on. -/
def renderSection (s : ChangeSection) : List String :=
  (("## " ++ versionToString s.version)
      :: (renderCat "### Breaking Changes" s.breaking
        ++ renderCat "### Features" s.features
        ++ renderCat "### Fixes" s.fixes
        ++ renderCat "### Other" s.other)).flatMap (fun l => [l, ""])

/-- The lines of a whole changelog document, newest section first. -/
def renderDoc (doc : List ChangeSection) : List String :=
  doc.flatMap renderSection

/-! ## PrepareRelease resolution (modelled from the spec and the tests) -/

/-- Modelled from the spec: the stable rule implied by a set of classified
entries — breaking ⇒ Major, else feature ⇒ Minor, else fix ⇒ Patch, else
no release. -/
def ruleOfEntries (entries : List ChangeEntry) : Option Rule :=
  if entries.any (fun e => e.category = Category.breaking) then some .major
  else if entries.any (fun e => e.category = Category.feature) then some .minor
  else if entries.any (fun e => e.category = Category.fix) then some .patch
  else none

/-- Modelled from the spec and the integration tests: the version a
`PrepareRelease` with a pre-release label resolves to.  If the current
version already carries a pre-release with the same label its numeric
suffix is incremented (`tests/prerelease.rs`: 1.1.0-rc.1 → 1.1.0-rc.2);
otherwise the stable rule is applied first and the series opens at 0
(`tests/prerelease_after_normal_release.rs`: 1.1.0 + breaking →
2.0.0-rc.0). -/
def resolveVersion (current : Version) (stableRule : Rule) :
    Option String → Except StepError Version
  | none => bump current stableRule
  | some label =>
    match current.pre with
    | some (l, n) =>
      if l = label then .ok ⟨current.major, current.minor, current.patch, some (label, n + 1), none⟩
      else bump current (.pre label)
    | none =>
      (bump current stableRule).map
        (fun s => ⟨s.major, s.minor, s.patch, some (label, 0), none⟩)

/-- Modelled from the spec: the changelog-and-version part of the
`PrepareRelease` step — classify the entries into a rule, resolve the next
version, and update the changelog document; `NoRelease` when no entry
implies a version change. -/
def prepare_release (current : Version) (doc : List ChangeSection)
    (entries : List ChangeEntry) (label : Option String) :
    Except StepError (Version × List ChangeSection) :=
  match ruleOfEntries entries with
  | none => .error .noRelease
  | some rule =>
    (resolveVersion current rule label).map
      (fun next => (next, addRelease doc next entries))

/-! ## The BumpVersion step (write phase modelled from the spec)

`releases::bump_version` (not under `src/`) checks cross-file consistency,
resolves the next version, and then runs each file's adapter
`set_version`, every write passing through the single sink.  The model
takes the resolved version string as input (resolution is the pure §4.3
computation) and threads the `FsState` through the adapter calls. -/

/-- Read the versions of all member files through the `package.json`
adapter. -/
def readVersions (files : List (String × String)) : List String → Except PJError (List String)
  | [] => .ok []
  | p :: rest =>
    match readFileMap files p with
    | none => .error .fsErr
    | some content =>
      (get_version content p).bind
        (fun v => (readVersions files rest).map (fun vs => v :: vs))

/-- Run `set_version` on each member file in order, stopping at the first
failure; the state is threaded through every call. -/
def bumpPackageFiles (mode : RunMode) (st : FsState) (newVersion : String) :
    List String → Except PJError Unit × FsState
  | [] => (.ok (), st)
  | p :: rest =>
    match readFileMap st.files p with
    | none => (.error .fsErr, st)
    | some content =>
      match set_version mode st content newVersion p with
      | (.ok _, st') => bumpPackageFiles mode st' newVersion rest
      | (.error e, st') => (.error e, st')

/-- Modelled from the spec: the `BumpVersion` step of §4.6 — check that
all member files agree on the current version, then write the resolved
new version into every file through the adapter and the sink. -/
def bump_version (mode : RunMode) (st : FsState) (paths : List String)
    (newVersion : String) : Except StepError Unit × FsState :=
  match readVersions st.files paths with
  | .error e => (.error (.versionedFile e), st)
  | .ok versions =>
    match current_version versions with
    | .error e => (.error e, st)
    | .ok _ =>
      match bumpPackageFiles mode st newVersion paths with
      | (.ok u, st') => (.ok u, st')
      | (.error e, st') => (.error (.versionedFile e), st')

/-! ## Fixtures for the concrete scenarios -/

/-- The `package.json` content used by the tests in
`src/releases/package_json.rs`. -/
def pkgContent : String :=
  "\x7b\n  \"name\": \"tester\",\n  \"version\": \"0.1.0-rc.0\"\n\x7d"

/-- Its parsed fields. -/
def pkgFields : JFields :=
  .cons "name" (.str "tester") (.cons "version" (.str "0.1.0-rc.0") .nil)

/-- A JSON object with a duplicated `version` key. -/
def dupContent : String :=
  "\x7b\"version\": \"1.0.0\", \"version\": \"2.0.0\"\x7d"

/-- Its parsed raw fields, duplicate retained in source order. -/
def dupFields : JFields :=
  .cons "version" (.str "1.0.0") (.cons "version" (.str "2.0.0") .nil)

/-- A one-element JSON array document: not an object, yet accepted by the
derived `Package` deserializer through the sequence path. -/
def seqContent : String := "[\"1.2.3\"]"

/-- A JSON object without any `version` key. -/
def noVersionContent : String := "\x7b\"name\": \"tester\"\x7d"

/-- Its parsed fields. -/
def noVersionFields : JFields := .cons "name" (.str "tester") .nil

/-- The claim's predicate for C8, from the spec's words: the content
parses as a JSON object carrying a string-valued top-level `version`
property (object read as a `Map`, last duplicate winning). -/
def packageShape (content : String) : Prop :=
  ∃ f, parseJson content = some (.obj f)
    ∧ ∃ v, lookupF (canonObj f) "version" = some (.str v)

/-- The starting world of the C4 witness scenario: one `package.json`. -/
def c4State : FsState := ⟨[("package.json", pkgContent)], []⟩

/-- The topmost changelog section of `tests/prerelease.rs` before the run. -/
def rcSectionOld : ChangeSection :=
  ⟨⟨1, 1, 0, some ("rc", 1), none⟩, [], ["New feature in first RC"], [], []⟩

/-- The target version of `tests/prerelease.rs`. -/
def rcTarget : Version := ⟨1, 1, 0, some ("rc", 2), none⟩

/-- The new entries of `tests/prerelease.rs` (commits since the last tag). -/
def rcEntries : List ChangeEntry := [⟨.feature, "New feature in second RC"⟩]

/-- The existing stable section of `tests/prerelease_after_normal_release.rs`
(the test's changelog spells "exsting"). -/
def stableSection : ChangeSection :=
  ⟨⟨1, 1, 0, none, none⟩, [], ["New feature in exsting release"], [], []⟩

/-- The new breaking entry of `tests/prerelease_after_normal_release.rs`. -/
def breakingEntries : List ChangeEntry := [⟨.breaking, "Breaking feature in new RC"⟩]

/-! ## Theorems -/

/-! ## Round-trip: parsing inverts pretty-printing -/

theorem skipWs_cons_of_not_ws {c : Char} (cs : List Char) (h : isWsChar c = false) :
    skipWs (c :: cs) = c :: cs := by
  simp [skipWs, h]

theorem skipWs_cons_of_ws {c : Char} (cs : List Char) (h : isWsChar c = true) :
    skipWs (c :: cs) = skipWs cs := by
  simp [skipWs, h]

theorem skipWs_spaces_append (n : Nat) (cs : List Char) :
    skipWs (spaces n ++ cs) = skipWs cs := by
  induction n with
  | zero => simp [spaces]
  | succ k ih =>
    simpa [spaces, List.replicate_succ, skipWs, isWsChar] using ih

theorem skipWs_newline (cs : List Char) : skipWs ('\n' :: cs) = skipWs cs := by
  simp [skipWs, isWsChar]

theorem hexVal_hexDigitChar {d : Nat} (h : d < 16) :
    hexVal (hexDigitChar d) = some d := by
  interval_cases d <;> decide

theorem parseStringBody_escape (l : List Char) (rest : List Char) :
    parseStringBody ((l.map escapeChar).flatten ++ '"' :: rest) = some (l, rest) := by
  induction l with
  | nil => simp [parseStringBody]
  | cons c t ih =>
    rw [List.map_cons, List.flatten_cons, List.append_assoc]
    by_cases h1 : c = '"'
    · subst h1; simp [escapeChar, parseStringBody, parseEscape, consFst, ih]
    by_cases h2 : c = '\\'
    · subst h2; simp [escapeChar, parseStringBody, parseEscape, consFst, ih]
    by_cases h3 : c = '\x08'
    · subst h3; simp [escapeChar, parseStringBody, parseEscape, consFst, ih]
    by_cases h4 : c = '\x09'
    · subst h4; simp [escapeChar, parseStringBody, parseEscape, consFst, ih]
    by_cases h5 : c = '\x0a'
    · subst h5; simp [escapeChar, parseStringBody, parseEscape, consFst, ih]
    by_cases h6 : c = '\x0c'
    · subst h6; simp [escapeChar, parseStringBody, parseEscape, consFst, ih]
    by_cases h7 : c = '\x0d'
    · subst h7; simp [escapeChar, parseStringBody, parseEscape, consFst, ih]
    by_cases h8 : c.toNat < 32
    · have hdiv : c.toNat / 16 < 16 := by omega
      have hmod : c.toNat % 16 < 16 := by omega
      have h0 : hexVal '0' = some 0 := by decide
      have hofNat : Char.ofNat c.toNat = c := Char.ofNat_toNat c
      have hval : (((0 : Nat) * 16 + 0) * 16 + c.toNat / 16) * 16 + c.toNat % 16
          = c.toNat := by omega
      have hval2 : c.toNat / 16 * 16 + c.toNat % 16 = c.toNat := by omega
      have hlt : c.toNat < 55296 := by omega
      simp only [escapeChar, if_neg h1, if_neg h2, if_neg h3, if_neg h4, if_neg h5,
        if_neg h6, if_neg h7, if_pos h8, List.cons_append, List.nil_append]
      simp [parseStringBody, parseEscape, h0, hexVal_hexDigitChar hdiv,
        hexVal_hexDigitChar hmod, hval, hval2, hlt, hofNat, consFst, ih]
    · have h9 : 32 ≤ c.toNat := by omega
      simp only [escapeChar, if_neg h1, if_neg h2, if_neg h3, if_neg h4, if_neg h5,
        if_neg h6, if_neg h7, if_neg h8]
      simp [parseStringBody, consFst, h1, h2, h9, ih]

theorem skipWs_allWs_append {ws : List Char} (h : allWsChars ws) (cs : List Char) :
    skipWs (ws ++ cs) = skipWs cs := by
  induction ws with
  | nil => simp
  | cons c t ih =>
    have hc : isWsChar c = true := h c (by simp)
    have ht : allWsChars t := fun d hd => h d (by simp [hd])
    simp [skipWs, hc, ih ht]

theorem digitChar_isDigit {m : Nat} (h : m < 10) :
    (Char.ofNat (48 + m)).isDigit = true := by
  interval_cases m <;> decide

theorem digitVal_digitChar {m : Nat} (h : m < 10) :
    digitVal (Char.ofNat (48 + m)) = m := by
  interval_cases m <;> decide

theorem takeDigits_no_digit {cs : List Char} (h : noDigitHead cs) (acc : Nat) :
    takeDigits cs acc = (acc, cs) := by
  cases cs with
  | nil => simp [takeDigits]
  | cons c t => simp [takeDigits, noDigitHead] at h ⊢; simp [h]

theorem natToCharsAux_zero (fuel : Nat) : natToCharsAux fuel 0 = [] := by
  cases fuel <;> simp [natToCharsAux]

theorem takeDigits_natToCharsAux (fuel : Nat) :
    ∀ n acc rest, n ≤ fuel →
      ∃ k, takeDigits (natToCharsAux fuel n ++ rest) acc
        = takeDigits rest (acc * 10 ^ k + n) := by
  induction fuel with
  | zero =>
    intro n acc rest hn
    exact ⟨0, by simp [natToCharsAux, Nat.le_zero.mp hn]⟩
  | succ f ih =>
    intro n acc rest hn
    by_cases h0 : n = 0
    · exact ⟨0, by simp [natToCharsAux, h0]⟩
    · have hrec : n / 10 ≤ f := by omega
      have hd : n % 10 < 10 := by omega
      obtain ⟨k, hk⟩ := ih (n / 10) acc (Char.ofNat (48 + n % 10) :: rest) hrec
      refine ⟨k + 1, ?_⟩
      rw [natToCharsAux, if_neg h0, List.append_assoc, List.singleton_append, hk,
        takeDigits, if_pos (digitChar_isDigit hd), digitVal_digitChar hd]
      congr 1
      have h1 : (acc * 10 ^ k + n / 10) * 10 + n % 10
          = acc * (10 ^ k * 10) + (n / 10 * 10 + n % 10) := by ring
      have h2 : n / 10 * 10 + n % 10 = n := by omega
      rw [h1, h2, pow_succ]

theorem natToCharsAux_succ (f n : Nat) (h : n ≠ 0) :
    natToCharsAux (f + 1) n
      = natToCharsAux f (n / 10) ++ [Char.ofNat (48 + n % 10)] := by
  simp [natToCharsAux, h]

theorem natToCharsAux_fuel (n : Nat) :
    ∀ fuel fuel', n ≤ fuel → n ≤ fuel' →
      natToCharsAux fuel n = natToCharsAux fuel' n := by
  induction n using Nat.strong_induction_on with
  | _ n ih =>
    intro fuel fuel' h h'
    by_cases h0 : n = 0
    · simp [h0, natToCharsAux_zero]
    · obtain ⟨f, rfl⟩ : ∃ f, fuel = f + 1 := ⟨fuel - 1, by omega⟩
      obtain ⟨f', rfl⟩ : ∃ g, fuel' = g + 1 := ⟨fuel' - 1, by omega⟩
      rw [natToCharsAux_succ _ _ h0, natToCharsAux_succ _ _ h0,
        ih (n / 10) (by omega) f f' (by omega) (by omega)]

theorem natToChars_head (n : Nat) (h : n ≠ 0) :
    ∃ m t, natToChars n = Char.ofNat (48 + m) :: t ∧ m < 10 ∧ m ≠ 0 := by
  induction n using Nat.strong_induction_on with
  | _ n ih =>
    obtain ⟨f, rfl⟩ : ∃ f, n = f + 1 := ⟨n - 1, by omega⟩
    rw [natToChars, if_neg h, natToCharsAux_succ _ _ h]
    by_cases h10 : f + 1 < 10
    · refine ⟨f + 1, [], ?_, h10, by omega⟩
      rw [Nat.div_eq_of_lt h10, natToCharsAux_zero, Nat.mod_eq_of_lt h10]
      simp
    · have h0' : (f + 1) / 10 ≠ 0 := by omega
      obtain ⟨m, t, hmt, hm, hm0⟩ := ih ((f + 1) / 10) (by omega) h0'
      rw [natToChars, if_neg h0'] at hmt
      rw [natToCharsAux_fuel ((f + 1) / 10) f ((f + 1) / 10) (by omega) le_rfl, hmt]
      exact ⟨m, t ++ [Char.ofNat (48 + (f + 1) % 10)], by simp, hm, hm0⟩

theorem parseIntPart_natToChars (n : Nat) (rest : List Char) (hrest : noDigitHead rest) :
    parseIntPart (natToChars n ++ rest) = some (n, rest) := by
  by_cases h0 : n = 0
  · subst h0
    rw [show natToChars 0 = ['0'] from rfl]
    simp [parseIntPart, takeDigits_no_digit hrest]
  · obtain ⟨m, t, hmt, hm, hm0⟩ := natToChars_head n h0
    have hne0 : Char.ofNat (48 + m) ≠ '0' := by
      interval_cases m <;> simp_all
    have hdig : (Char.ofNat (48 + m)).isDigit = true := digitChar_isDigit hm
    rw [hmt]
    simp only [List.cons_append, parseIntPart, if_neg hne0, if_pos hdig]
    -- relate `takeDigits` on the tail with `takeDigits` on the whole literal
    have hwhole : ∃ k, takeDigits (natToCharsAux n n ++ rest) 0
        = takeDigits rest (0 * 10 ^ k + n) := takeDigits_natToCharsAux n n 0 rest le_rfl
    rw [natToChars, if_neg h0] at hmt
    obtain ⟨k, hk⟩ := hwhole
    rw [hmt] at hk
    simp only [List.cons_append, takeDigits, if_pos hdig, digitVal_digitChar hm,
      takeDigits_no_digit hrest] at hk
    simp only [Nat.zero_mul, Nat.zero_add, List.append_eq] at hk
    simp only [digitVal_digitChar hm, List.append_eq]
    rw [hk]

theorem parseNumber_intToChars (i : Int) (rest : List Char) (hrest : noDigitHead rest) :
    parseNumber (intToChars i ++ rest) = some (.num i, rest) := by
  by_cases hneg : i < 0
  · rw [intToChars, if_pos hneg, List.cons_append]
    rw [parseNumber, if_pos rfl, parseIntPart_natToChars _ _ hrest]
    simp only [Option.map_some']
    have habs : (-(i.natAbs : Int)) = i := by omega
    rw [habs]
  · rw [intToChars, if_neg hneg]
    obtain ⟨m, t, hmt, hm, _⟩ :
        ∃ m t, natToChars i.toNat = Char.ofNat (48 + m) :: t ∧ m < 10 ∧ (m = 0 → i.toNat = 0) := by
      by_cases h0 : i.toNat = 0
      · exact ⟨0, [], by rw [h0]; rfl, by omega, fun _ => h0⟩
      · obtain ⟨m, t, hmt, hm, hm0⟩ := natToChars_head _ h0
        exact ⟨m, t, hmt, hm, fun h => absurd h hm0⟩
    have hnotminus : Char.ofNat (48 + m) ≠ '-' := by
      interval_cases m <;> decide
    rw [hmt, List.cons_append, parseNumber, if_neg hnotminus, ← List.cons_append, ← hmt,
      parseIntPart_natToChars _ _ hrest]
    simp only [Option.map_some']
    have htn : ((i.toNat : Int)) = i := by omega
    rw [htn]

theorem jsizeJ_pos (j : Json) : 1 ≤ jsizeJ j := by
  cases j <;> simp [jsizeJ]

theorem jsizeL_pos (l : JList) : 1 ≤ jsizeL l := by
  cases l <;> simp [jsizeL] <;> omega

theorem jsizeF_pos (f : JFields) : 1 ≤ jsizeF f := by
  cases f <;> simp [jsizeF] <;> omega

theorem parseVal_ws_skip (fuel : Nat) {ws : List Char} (h : allWsChars ws)
    (cs : List Char) : parseVal fuel (ws ++ cs) = parseVal fuel cs := by
  cases fuel with
  | zero => rfl
  | succ f => rw [parseVal, parseVal, skipWs_allWs_append h]

theorem isWsChar_not_digit {c : Char} (h : isWsChar c = true) : c.isDigit = false := by
  simp only [isWsChar, Bool.or_eq_true, decide_eq_true_eq] at h
  rcases h with ((h | h) | h) | h <;> subst h <;> decide

theorem noDigitHead_ws_cons {ws : List Char} (hws : allWsChars ws) {c : Char}
    (hc : c.isDigit = false) (rest : List Char) : noDigitHead (ws ++ c :: rest) := by
  cases ws with
  | nil => exact hc
  | cons w t => exact isWsChar_not_digit (hws w (by simp))

theorem allWs_nil : allWsChars [] := by intro c hc; cases hc

theorem allWs_single_space : allWsChars [' '] := by
  intro c hc
  simp at hc
  subst hc; decide

theorem allWs_newline_spaces (n : Nat) : allWsChars ('\n' :: spaces n) := by
  intro c hc
  rcases List.mem_cons.mp hc with h | h
  · subst h; decide
  · rw [List.eq_of_mem_replicate h]; decide

theorem intToChars_head (i : Int) :
    ∃ c t, intToChars i = c :: t ∧ isWsChar c = false ∧ c ≠ ']'
      ∧ (c = '-' ∨ c.isDigit = true) ∧ c ≠ '\x7b' ∧ c ≠ '['
      ∧ c ≠ '"' ∧ c ≠ 'n' ∧ c ≠ 't' ∧ c ≠ 'f' := by
  by_cases hneg : i < 0
  · exact ⟨'-', _, by rw [intToChars, if_pos hneg], by decide, by decide,
      Or.inl rfl, by decide, by decide, by decide, by decide, by decide, by decide⟩
  · have : ∃ m t, natToChars i.toNat = Char.ofNat (48 + m) :: t ∧ m < 10 := by
      by_cases h0 : i.toNat = 0
      · exact ⟨0, [], by rw [h0]; rfl, by omega⟩
      · obtain ⟨m, t, hmt, hm, _⟩ := natToChars_head _ h0
        exact ⟨m, t, hmt, hm⟩
    obtain ⟨m, t, hmt, hm⟩ := this
    refine ⟨Char.ofNat (48 + m), t, by rw [intToChars, if_neg hneg, hmt], ?_, ?_,
      Or.inr (digitChar_isDigit hm), ?_, ?_, ?_, ?_, ?_, ?_⟩
      <;> interval_cases m <;> decide

theorem printVal_head (ind : Nat) (j : Json) :
    ∃ c t, printVal ind j = c :: t ∧ isWsChar c = false ∧ c ≠ ']' := by
  cases j with
  | null => exact ⟨'n', _, rfl, by decide, by decide⟩
  | bool b =>
    cases b with
    | false => exact ⟨'f', _, rfl, by decide, by decide⟩
    | true => exact ⟨'t', _, rfl, by decide, by decide⟩
  | num i =>
    obtain ⟨c, t, hct, hws, hbr, _⟩ := intToChars_head i
    exact ⟨c, t, by rw [printVal, hct], hws, hbr⟩
  | str s =>
    exact ⟨'"', (s.data.map escapeChar).flatten ++ ['"'],
      by simp [printVal, printString], by decide, by decide⟩
  | arr l =>
    cases l with
    | nil => exact ⟨'[', [']'], by simp [printVal], by decide, by decide⟩
    | cons h t =>
      exact ⟨'[', '\n' :: (spaces (ind + 2) ++ (printElems (ind + 2) (JList.cons h t)
        ++ '\n' :: (spaces ind ++ [']']))), by simp [printVal], by decide, by decide⟩
  | obj f =>
    cases f with
    | nil => exact ⟨'\x7b', ['\x7d'], by simp [printVal], by decide, by decide⟩
    | cons k v t =>
      exact ⟨'\x7b', '\n' :: (spaces (ind + 2) ++ (printFields (ind + 2) (JFields.cons k v t)
        ++ '\n' :: (spaces ind ++ ['\x7d']))), by simp [printVal], by decide, by decide⟩

theorem skipWs_colon (cs : List Char) : skipWs (':' :: cs) = ':' :: cs :=
  skipWs_cons_of_not_ws cs (by decide)

theorem skipWs_comma (cs : List Char) : skipWs (',' :: cs) = ',' :: cs :=
  skipWs_cons_of_not_ws cs (by decide)

theorem skipWs_quote (cs : List Char) : skipWs ('"' :: cs) = '"' :: cs :=
  skipWs_cons_of_not_ws cs (by decide)

theorem skipWs_rbrace (cs : List Char) : skipWs ('\x7d' :: cs) = '\x7d' :: cs :=
  skipWs_cons_of_not_ws cs (by decide)

theorem skipWs_rbracket (cs : List Char) : skipWs (']' :: cs) = ']' :: cs :=
  skipWs_cons_of_not_ws cs (by decide)

theorem parseVal_space (fuel : Nat) (cs : List Char) :
    parseVal fuel (' ' :: cs) = parseVal fuel cs :=
  parseVal_ws_skip fuel allWs_single_space cs

theorem parseVal_nl_spaces (fuel n : Nat) (cs : List Char) :
    parseVal fuel ('\n' :: (spaces n ++ cs)) = parseVal fuel cs :=
  parseVal_ws_skip fuel (allWs_newline_spaces n) cs

theorem skipWs_nl_spaces (n : Nat) (cs : List Char) :
    skipWs ('\n' :: (spaces n ++ cs)) = skipWs cs := by
  rw [show ('\n' :: (spaces n ++ cs)) = ('\n' :: spaces n) ++ cs from rfl,
    skipWs_allWs_append (allWs_newline_spaces n)]

theorem roundtrip_step_fields (f : Nat)
    (ihv : ∀ j ind rest, jsizeJ j ≤ f → noDigitHead rest →
        parseVal f (printVal ind j ++ rest) = some (j, rest))
    (ihf : ∀ fl ind ws rest, fl ≠ JFields.nil → jsizeF fl ≤ f → allWsChars ws →
        parseFields f (printFields ind fl ++ ws ++ '\x7d' :: rest) = some (fl, rest)) :
    ∀ fl ind ws rest, fl ≠ JFields.nil → jsizeF fl ≤ f + 1 → allWsChars ws →
      parseFields (f + 1) (printFields ind fl ++ ws ++ '\x7d' :: rest) = some (fl, rest) := by
  intro fl ind ws rest hne hsz hws
  match fl, hne with
  | .cons k v t, _ =>
    cases t with
    | nil =>
      have hX : noDigitHead (ws ++ '\x7d' :: rest) :=
        noDigitHead_ws_cons hws (by decide) rest
      have hszv : jsizeJ v ≤ f := by simp only [jsizeF] at hsz; omega
      have hval := ihv v ind (ws ++ '\x7d' :: rest) hszv hX
      rw [printFields]
      simp only [printString, sepFields, printFields, List.append_assoc, List.cons_append,
        List.nil_append]
      rw [parseFields]
      simp [parseStringBody_escape, skipWs_colon, parseVal_space, hval,
        skipWs_allWs_append hws, skipWs_rbrace]
    | cons k2 v2 t2 =>
      have hX : noDigitHead (sepFields ind (JFields.cons k2 v2 t2)
          ++ (printFields ind (JFields.cons k2 v2 t2) ++ (ws ++ '\x7d' :: rest))) := by
        show (',' : Char).isDigit = false
        decide
      have hszv : jsizeJ v ≤ f := by
        have := jsizeF_pos (JFields.cons k2 v2 t2)
        simp only [jsizeF] at hsz
        omega
      have hval := ihv v ind _ hszv hX
      have hszt : jsizeF (JFields.cons k2 v2 t2) ≤ f := by
        have := jsizeJ_pos v
        simp only [jsizeF] at hsz ⊢
        omega
      have hrec := ihf (JFields.cons k2 v2 t2) ind ws rest (by simp) hszt hws
      rw [printFields]
      simp only [printString, List.append_assoc, List.cons_append, List.nil_append]
      rw [parseFields]
      simp only [sepFields, List.cons_append, List.append_assoc] at hval
      have hhead : skipWs (printFields ind (JFields.cons k2 v2 t2) ++ (ws ++ '\x7d' :: rest))
          = printFields ind (JFields.cons k2 v2 t2) ++ (ws ++ '\x7d' :: rest) := by
        rw [printFields]
        simp only [printString, List.append_assoc, List.cons_append]
        exact skipWs_quote _
      simp only [List.append_assoc] at hrec
      simp [parseStringBody_escape, skipWs_colon, parseVal_space, hval, skipWs_comma,
        sepFields, skipWs_nl_spaces, hhead, hrec]

theorem roundtrip_step_elems (f : Nat)
    (ihv : ∀ j ind rest, jsizeJ j ≤ f → noDigitHead rest →
        parseVal f (printVal ind j ++ rest) = some (j, rest))
    (ihe : ∀ l ind ws0 ws rest, l ≠ JList.nil → jsizeL l ≤ f → allWsChars ws0 →
        allWsChars ws →
        parseElems f (ws0 ++ printElems ind l ++ ws ++ ']' :: rest) = some (l, rest)) :
    ∀ l ind ws0 ws rest, l ≠ JList.nil → jsizeL l ≤ f + 1 → allWsChars ws0 →
      allWsChars ws →
      parseElems (f + 1) (ws0 ++ printElems ind l ++ ws ++ ']' :: rest) = some (l, rest) := by
  intro l ind ws0 ws rest hne hsz hws0 hws
  match l, hne with
  | .cons h t, _ =>
    cases t with
    | nil =>
      have hX : noDigitHead (ws ++ ']' :: rest) :=
        noDigitHead_ws_cons hws (by decide) rest
      have hszh : jsizeJ h ≤ f := by simp only [jsizeL] at hsz; omega
      have hval := ihv h ind (ws ++ ']' :: rest) hszh hX
      rw [printElems]
      simp only [sepElems, printElems, List.append_assoc, List.nil_append]
      rw [parseElems, parseVal_ws_skip f hws0]
      simp [hval, skipWs_allWs_append hws, skipWs_rbracket]
    | cons h2 t2 =>
      have hX : noDigitHead (sepElems ind (JList.cons h2 t2)
          ++ (printElems ind (JList.cons h2 t2) ++ (ws ++ ']' :: rest))) := by
        show (',' : Char).isDigit = false
        decide
      have hszh : jsizeJ h ≤ f := by
        have := jsizeL_pos (JList.cons h2 t2)
        simp only [jsizeL] at hsz
        omega
      have hval := ihv h ind _ hszh hX
      have hszt : jsizeL (JList.cons h2 t2) ≤ f := by
        have := jsizeJ_pos h
        simp only [jsizeL] at hsz ⊢
        omega
      have hrec := ihe (JList.cons h2 t2) ind ('\n' :: spaces ind) ws rest (by simp) hszt
        (allWs_newline_spaces ind) hws
      rw [printElems]
      simp only [List.append_assoc]
      rw [parseElems, parseVal_ws_skip f hws0]
      simp only [sepElems, List.cons_append, List.append_assoc] at hval
      simp only [List.cons_append, List.append_assoc] at hrec
      simp [hval, skipWs_comma, sepElems, hrec]

theorem roundtrip_step_val (f : Nat)
    (ihe : ∀ l ind ws0 ws rest, l ≠ JList.nil → jsizeL l ≤ f → allWsChars ws0 →
        allWsChars ws →
        parseElems f (ws0 ++ printElems ind l ++ ws ++ ']' :: rest) = some (l, rest))
    (ihf : ∀ fl ind ws rest, fl ≠ JFields.nil → jsizeF fl ≤ f → allWsChars ws →
        parseFields f (printFields ind fl ++ ws ++ '\x7d' :: rest) = some (fl, rest)) :
    ∀ j ind rest, jsizeJ j ≤ f + 1 → noDigitHead rest →
      parseVal (f + 1) (printVal ind j ++ rest) = some (j, rest) := by
  intro j ind rest hsz hrest
  cases j with
  | null => simp [parseVal, printVal, litNullChars, skipWs, isWsChar, parseLitNull]
  | bool b =>
    cases b with
    | true => simp [parseVal, printVal, litTrueChars, skipWs, isWsChar, parseLitTrue]
    | false => simp [parseVal, printVal, litFalseChars, skipWs, isWsChar, parseLitFalse]
  | num i =>
    obtain ⟨c, tl, hct, hwsc, _, hnum, h7b, hlb, hq, hn, ht, hf⟩ := intToChars_head i
    have hwhole : printVal ind (Json.num i) ++ rest = c :: (tl ++ rest) := by
      rw [printVal, hct]
      rfl
    rw [hwhole, parseVal, skipWs_cons_of_not_ws _ hwsc]
    simp only []
    rw [if_neg h7b, if_neg hlb, if_neg hq, if_neg hn, if_neg ht, if_neg hf, if_pos hnum,
      show c :: (tl ++ rest) = intToChars i ++ rest from by rw [hct]; rfl,
      parseNumber_intToChars i rest hrest]
  | str s =>
    simp only [printVal, printString, List.cons_append, List.append_assoc,
      List.singleton_append]
    rw [parseVal, skipWs_quote]
    simp [parseStringBody_escape]
  | arr l =>
    cases l with
    | nil =>
      rw [show printVal ind (Json.arr JList.nil) ++ rest = '[' :: ']' :: rest from rfl,
        parseVal, skipWs_cons_of_not_ws _ (by decide)]
      simp [skipWs_rbracket]
    | cons h t =>
      obtain ⟨c0, t0, hph, hwsc0, hc0rb⟩ := printVal_head (ind + 2) h
      have hsplit : printElems (ind + 2) (JList.cons h t)
            ++ ('\n' :: (spaces ind ++ (']' :: rest)))
          = c0 :: (t0 ++ (sepElems (ind + 2) t ++ (printElems (ind + 2) t
            ++ ('\n' :: (spaces ind ++ (']' :: rest)))))) := by
        rw [printElems, hph]
        simp [List.append_assoc]
      have hrec := ihe (JList.cons h t) (ind + 2) [] ('\n' :: spaces ind) rest (by simp)
        (by simp only [jsizeJ] at hsz; omega) allWs_nil (allWs_newline_spaces ind)
      simp only [List.nil_append, List.cons_append, List.append_assoc] at hrec
      have hshape : printVal ind (Json.arr (JList.cons h t)) ++ rest
          = '[' :: ('\n' :: (spaces (ind + 2) ++ (printElems (ind + 2) (JList.cons h t)
            ++ ('\n' :: (spaces ind ++ (']' :: rest)))))) := by
        rw [printVal]
        simp [List.append_assoc]
      rw [hshape, parseVal, skipWs_cons_of_not_ws _ (by decide)]
      simp only []
      rw [if_pos trivial, skipWs_nl_spaces, hsplit, skipWs_cons_of_not_ws _ hwsc0]
      simp only []
      rw [if_neg hc0rb, ← hsplit, hrec]
      simp
  | obj fl =>
    cases fl with
    | nil =>
      rw [show printVal ind (Json.obj JFields.nil) ++ rest = '\x7b' :: '\x7d' :: rest from rfl,
        parseVal, skipWs_cons_of_not_ws _ (by decide)]
      simp [skipWs_rbrace]
    | cons k v t =>
      have hsplit : printFields (ind + 2) (JFields.cons k v t)
            ++ ('\n' :: (spaces ind ++ ('\x7d' :: rest)))
          = '"' :: ((k.data.map escapeChar).flatten ++ ('"' :: (':' :: (' ' ::
            (printVal (ind + 2) v ++ (sepFields (ind + 2) t ++ (printFields (ind + 2) t
              ++ ('\n' :: (spaces ind ++ ('\x7d' :: rest)))))))))) := by
        rw [printFields]
        simp [printString, List.append_assoc]
      have hrec := ihf (JFields.cons k v t) (ind + 2) ('\n' :: spaces ind) rest (by simp)
        (by simp only [jsizeJ] at hsz; omega) (allWs_newline_spaces ind)
      simp only [List.cons_append, List.append_assoc] at hrec
      have hshape : printVal ind (Json.obj (JFields.cons k v t)) ++ rest
          = '\x7b' :: ('\n' :: (spaces (ind + 2) ++ (printFields (ind + 2) (JFields.cons k v t)
            ++ ('\n' :: (spaces ind ++ ('\x7d' :: rest)))))) := by
        rw [printVal]
        simp [List.append_assoc]
      rw [hshape, parseVal, skipWs_cons_of_not_ws _ (by decide)]
      simp only []
      rw [if_pos trivial, skipWs_nl_spaces, hsplit, skipWs_cons_of_not_ws _ (by decide)]
      simp only []
      rw [if_neg (by decide : ¬ ('"' : Char) = '\x7d'), ← hsplit, hrec]
      simp

theorem roundtripAux (fuel : Nat) :
    (∀ j ind rest, jsizeJ j ≤ fuel → noDigitHead rest →
        parseVal fuel (printVal ind j ++ rest) = some (j, rest)) ∧
    (∀ l ind ws0 ws rest, l ≠ JList.nil → jsizeL l ≤ fuel → allWsChars ws0 →
        allWsChars ws →
        parseElems fuel (ws0 ++ printElems ind l ++ ws ++ ']' :: rest) = some (l, rest)) ∧
    (∀ fl ind ws rest, fl ≠ JFields.nil → jsizeF fl ≤ fuel → allWsChars ws →
        parseFields fuel (printFields ind fl ++ ws ++ '\x7d' :: rest) = some (fl, rest)) := by
  induction fuel with
  | zero =>
    refine ⟨?_, ?_, ?_⟩
    · intro j _ _ hsz _
      have := jsizeJ_pos j
      omega
    · intro l _ _ _ _ _ hsz _ _
      have := jsizeL_pos l
      omega
    · intro fl _ _ _ _ hsz _
      have := jsizeF_pos fl
      omega
  | succ f ih =>
    obtain ⟨ihv, ihe, ihf⟩ := ih
    exact ⟨roundtrip_step_val f ihe ihf, roundtrip_step_elems f ihv ihe,
      roundtrip_step_fields f ihv ihf⟩

mutual

theorem jsizeJ_le_print (ind : Nat) (j : Json) :
    jsizeJ j ≤ (printVal ind j).length + 1 := by
  cases j with
  | null => simp [jsizeJ, printVal, litNullChars]
  | bool b => cases b <;> simp [jsizeJ, printVal, litTrueChars, litFalseChars]
  | num i => simp [jsizeJ]
  | str s => simp [jsizeJ]
  | arr l =>
    cases l with
    | nil => simp [jsizeJ, jsizeL, printVal]
    | cons h t =>
      have := jsizeL_le_print (ind + 2) (JList.cons h t) (by simp)
      simp only [jsizeJ, printVal, if_neg (by simp : ¬ JList.cons h t = JList.nil)]
      simp only [List.length_cons, List.length_append, List.cons_append]
      simp [spaces] at this ⊢
      omega
  | obj fl =>
    cases fl with
    | nil => simp [jsizeJ, jsizeF, printVal]
    | cons k v t =>
      have := jsizeF_le_print (ind + 2) (JFields.cons k v t) (by simp)
      simp only [jsizeJ, printVal, if_neg (by simp : ¬ JFields.cons k v t = JFields.nil)]
      simp only [List.length_cons, List.length_append, List.cons_append]
      simp [spaces] at this ⊢
      omega

theorem jsizeL_le_print (ind : Nat) (l : JList) (h : l ≠ JList.nil) :
    jsizeL l ≤ (printElems ind l).length + 3 := by
  match l, h with
  | .cons hd t, _ =>
    have hhd := jsizeJ_le_print ind hd
    cases t with
    | nil => simp [jsizeL, printElems, sepElems]; omega
    | cons h2 t2 =>
      have ht := jsizeL_le_print ind (JList.cons h2 t2) (by simp)
      simp only [jsizeL, printElems, sepElems] at ht ⊢
      simp [spaces] at ht ⊢
      omega

theorem jsizeF_le_print (ind : Nat) (fl : JFields) (h : fl ≠ JFields.nil) :
    jsizeF fl ≤ (printFields ind fl).length + 3 := by
  match fl, h with
  | .cons k v t, _ =>
    have hv := jsizeJ_le_print ind v
    cases t with
    | nil => simp [jsizeF, printFields, sepFields, printString]; omega
    | cons k2 v2 t2 =>
      have ht := jsizeF_le_print ind (JFields.cons k2 v2 t2) (by simp)
      simp only [jsizeF, printFields, sepFields, printString] at ht ⊢
      simp [spaces] at ht ⊢
      omega

end

/-- Parsing inverts pretty-printing: the heart of the `package.json`
round-trip property. -/
theorem parseJson_print (j : Json) : parseJson (String.mk (printVal 0 j)) = some j := by
  have hlen : jsizeJ j ≤ (printVal 0 j).length + 1 := jsizeJ_le_print 0 j
  have h := (roundtripAux ((printVal 0 j).length + 1)).1 j 0 [] hlen trivial
  rw [List.append_nil] at h
  rw [parseJson, show (String.mk (printVal 0 j)).length = (printVal 0 j).length from rfl,
    show (String.mk (printVal 0 j)).data = printVal 0 j from rfl, h]
  simp [skipWs]

/-! ## Lemmas about ordered maps and the `Package` deserializer -/

/-- Induction over object fields alone (the mutual recursor of `JFields`
has one motive per mutual type; these proofs never descend into values). -/
@[induction_eliminator]
theorem fieldsRecAux {motive : JFields → Prop} (nil : motive JFields.nil)
    (cons : ∀ k v t, motive t → motive (JFields.cons k v t)) : ∀ f, motive f
  | .nil => nil
  | .cons k v t => cons k v t (fieldsRecAux nil cons t)

/-- Induction over array elements alone. -/
@[induction_eliminator]
theorem listRecAux {motive : JList → Prop} (nil : motive JList.nil)
    (cons : ∀ h t, motive t → motive (JList.cons h t)) : ∀ l, motive l
  | .nil => nil
  | .cons h t => cons h t (listRecAux nil cons t)

theorem keysF_insertFields_mem {f : JFields} {k : String} (h : k ∈ keysF f) (v : Json) :
    keysF (insertFields f k v) = keysF f := by
  induction f with
  | nil => cases h
  | cons k' v' t ih =>
    by_cases hk : k' = k
    · simp [insertFields, hk, keysF]
    · rw [keysF] at h
      rcases List.mem_cons.mp h with h | h
      · exact absurd h.symm hk
      · simp [insertFields, hk, keysF, ih h]

theorem keysF_insertFields_not_mem {f : JFields} {k : String} (h : k ∉ keysF f) (v : Json) :
    keysF (insertFields f k v) = keysF f ++ [k] := by
  induction f with
  | nil => simp [insertFields, keysF]
  | cons k' v' t ih =>
    rw [keysF] at h
    have hk : k' ≠ k := fun hh => h (by simp [hh])
    have ht : k ∉ keysF t := fun hh => h (by simp [hh])
    simp [insertFields, hk, keysF, ih ht]

theorem nodupKeys_insertFields {f : JFields} (h : nodupKeys f) (k : String) (v : Json) :
    nodupKeys (insertFields f k v) := by
  by_cases hmem : k ∈ keysF f
  · unfold nodupKeys
    rw [keysF_insertFields_mem hmem]
    exact h
  · unfold nodupKeys
    rw [keysF_insertFields_not_mem hmem]
    simp only [List.nodup_append]
    refine ⟨h, by simp, ?_⟩
    intro x hx hmem2
    simp at hmem2
    subst hmem2
    exact hmem hx

theorem lookupF_insertFields_self (f : JFields) (k : String) (v : Json) :
    lookupF (insertFields f k v) k = some v := by
  induction f with
  | nil => simp [insertFields, lookupF]
  | cons k' v' t ih =>
    by_cases hk : k' = k
    · simp [insertFields, hk, lookupF]
    · simp [insertFields, hk, lookupF, ih]

theorem lookupF_insertFields_ne (f : JFields) {k k' : String} (h : k' ≠ k) (v : Json) :
    lookupF (insertFields f k v) k' = lookupF f k' := by
  induction f with
  | nil => simp [insertFields, lookupF, Ne.symm h]
  | cons k2 v2 t ih =>
    by_cases hk : k2 = k
    · subst hk
      simp [insertFields, lookupF, Ne.symm h]
    · simp [insertFields, hk, lookupF, ih]

theorem nodupKeys_canonGo (f : JFields) :
    ∀ acc, nodupKeys acc → nodupKeys (canonGo acc f) := by
  induction f with
  | nil => intro acc h; simpa [canonGo] using h
  | cons k v t ih =>
    intro acc h
    rw [canonGo]
    exact ih _ (nodupKeys_insertFields h k (canonJson v))

theorem nodupKeys_canonObj (f : JFields) : nodupKeys (canonObj f) :=
  nodupKeys_canonGo f .nil (by simp [nodupKeys, keysF])

/-- Streaming with `version` already seen succeeds exactly when no further
`version` field occurs. -/
theorem packageVersionFields_seen (f : JFields) (s v : String) :
    packageVersionFields f (some s) = .ok v ↔ ("version" ∉ keysF f ∧ v = s) := by
  induction f generalizing s with
  | nil => simp [packageVersionFields, keysF, eq_comm]
  | cons k w t ih =>
    by_cases hk : k = "version"
    · subst hk
      simp [packageVersionFields, keysF]
    · simp [packageVersionFields, hk, keysF, ih, Ne.symm hk]

/-- Streaming characterization of the derived `Package` deserializer. -/
theorem packageVersionFields_ok_iff (f : JFields) (v : String) :
    packageVersionFields f none = .ok v
      ↔ ((keysF f).count "version" = 1 ∧ lookupF f "version" = some (.str v)) := by
  induction f with
  | nil => simp [packageVersionFields, keysF, lookupF]
  | cons k w t ih =>
    by_cases hk : k = "version"
    · subst hk
      cases w with
      | str s =>
        rw [packageVersionFields, if_pos rfl]
        simp only [jsonAsString]
        rw [packageVersionFields_seen]
        constructor
        · rintro ⟨hnm, rfl⟩
          constructor
          · have h0 : List.count "version" (keysF t) = 0 := List.count_eq_zero.mpr hnm
            simp [keysF, List.count_cons, h0]
          · simp [lookupF]
        · rintro ⟨hcount, hlook⟩
          have hsv : s = v := by simpa [lookupF] using hlook
          subst hsv
          refine ⟨?_, rfl⟩
          have h0 : List.count "version" (keysF t) = 0 := by
            simp [keysF, List.count_cons] at hcount
            omega
          exact List.count_eq_zero.mp h0
      | null => simp [packageVersionFields, jsonAsString, keysF, lookupF]
      | bool b => simp [packageVersionFields, jsonAsString, keysF, lookupF]
      | num n => simp [packageVersionFields, jsonAsString, keysF, lookupF]
      | arr l => simp [packageVersionFields, jsonAsString, keysF, lookupF]
      | obj f2 => simp [packageVersionFields, jsonAsString, keysF, lookupF]
    · rw [packageVersionFields, if_neg hk]
      rw [ih]
      simp [keysF, lookupF, hk, List.count_cons, Ne.symm hk]

/-- The sequence path succeeds exactly on a one-element array whose
single element is the version string. -/
theorem packageVersionSeq_ok_iff (l : JList) (v : String) :
    packageVersionSeq l = .ok v ↔ l = .cons (.str v) .nil := by
  cases l with
  | nil => simp [packageVersionSeq]
  | cons h t =>
    cases t with
    | nil => cases h <;> simp [packageVersionSeq, jsonAsString]
    | cons h2 t2 => cases h <;> simp [packageVersionSeq, jsonAsString]

/-- Streaming with no `version` key at all fails with `missing field`. -/
theorem packageVersionFields_missing {f : JFields} (h : "version" ∉ keysF f) :
    packageVersionFields f none = .error .missingField := by
  induction f with
  | nil => rfl
  | cons k w t ih =>
    rw [keysF] at h
    have hk : k ≠ "version" := fun hh => h (by simp [hh])
    have ht : "version" ∉ keysF t := fun hh => h (by simp [hh])
    rw [packageVersionFields, if_neg hk]
    exact ih ht

/-- After inserting `version ↦ str V` into a duplicate-free map, the
streaming deserializer recovers exactly `V`. -/
theorem packageVersionFields_insert {m : JFields} (h : nodupKeys m) (V : String) :
    packageVersionFields (insertFields m "version" (.str V)) none = .ok V := by
  rw [packageVersionFields_ok_iff]
  constructor
  · by_cases hmem : "version" ∈ keysF m
    · rw [keysF_insertFields_mem hmem]
      exact List.count_eq_one_of_mem h hmem
    · rw [keysF_insertFields_not_mem hmem]
      rw [List.count_append]
      simp [List.count_eq_zero_of_not_mem hmem]
  · exact lookupF_insertFields_self m "version" (.str V)

/-- The printed output of `set_version` deserializes as `Package` with
exactly the new version. -/
theorem get_version_of_set_version {mode : RunMode} {st : FsState} {content V path out : String}
    (h : (set_version mode st content V path).1 = .ok out) :
    get_version out path = .ok V := by
  rw [set_version] at h
  cases hp : parseJson content with
  | none => rw [hp] at h; cases h
  | some j =>
    cases j with
    | obj f =>
      rw [hp] at h
      simp only at h
      have hout : out = String.mk (printVal 0
          (.obj (insertFields (canonObj f) "version" (.str V)))) := by
        cases h
        rfl
      subst hout
      rw [get_version, deserializePackage, parseJson_print]
      simp [packageVersionFields_insert (nodupKeys_canonObj f) V, Except.mapError]
    | null => rw [hp] at h; cases h
    | bool b => rw [hp] at h; cases h
    | num n => rw [hp] at h; cases h
    | str s => rw [hp] at h; cases h
    | arr l => rw [hp] at h; cases h

/-! ## State lemmas for `set_version` and the bump step -/

theorem readFileMap_writeFileMap (files : List (String × String)) (p c q : String) :
    readFileMap (writeFileMap files p c) q
      = if q = p then some c else readFileMap files q := by
  induction files with
  | nil =>
    by_cases h : q = p
    · simp [writeFileMap, readFileMap, h]
    · simp [writeFileMap, readFileMap, h, Ne.symm h]
  | cons pc t ih =>
    obtain ⟨p', c'⟩ := pc
    by_cases h1 : p' = p
    · subst h1
      by_cases h2 : p' = q
      · subst h2
        simp [writeFileMap, readFileMap]
      · simp [writeFileMap, readFileMap, h2, Ne.symm h2]
    · by_cases h2 : p' = q
      · subst h2
        simp [writeFileMap, readFileMap, h1, Ne.symm h1]
      · simp [writeFileMap, readFileMap, h1, h2, ih]

/-- An erroring `set_version` returns the state untouched: serialization
completes before the single write call is reached. -/
theorem set_version_error_state {mode : RunMode} {st : FsState}
    {content V path : String} {e : PJError}
    (h : (set_version mode st content V path).1 = .error e) :
    (set_version mode st content V path).2 = st := by
  rw [set_version] at h ⊢
  cases hp : parseJson content with
  | none => simp
  | some j => cases j <;> rw [hp] at h <;> simp at h ⊢ <;> cases h

/-- Every error `set_version` produces is a `Deserialize` error carrying
the offending path. -/
theorem set_version_error_shape {mode : RunMode} {st : FsState}
    {content V path : String} {e : PJError}
    (h : (set_version mode st content V path).1 = .error e) :
    ∃ src, e = .deserialize path src := by
  rw [set_version] at h
  cases hp : parseJson content with
  | none =>
    rw [hp] at h
    simp at h
    exact ⟨.syntaxErr, h.symm⟩
  | some j =>
    cases j <;> rw [hp] at h <;> simp at h <;>
      first
      | exact ⟨.invalidType, h.symm⟩
      | cases h

/-- In dry-run mode no file content is ever touched by `set_version`. -/
theorem set_version_dryRun_files (st : FsState) (content V path : String) :
    (set_version .dryRun st content V path).2.files = st.files := by
  rw [set_version]
  cases parseJson content with
  | none => rfl
  | some j => cases j <;> simp [fsWrite]

/-- A successful dry-run `set_version` appends exactly the would-change
line to the sink. -/
theorem set_version_dryRun_sink {st : FsState} {content V path out : String}
    (h : (set_version .dryRun st content V path).1 = .ok out) :
    (set_version .dryRun st content V path).2.sink
      = st.sink ++ ["would change " ++ path ++ " to version " ++ V] := by
  rw [set_version] at h ⊢
  cases hp : parseJson content with
  | none => rw [hp] at h; cases h
  | some j =>
    cases j <;> rw [hp] at h <;> simp at h ⊢ <;> try cases h
    rfl

/-- In real mode the sink is never written. -/
theorem set_version_real_sink (st : FsState) (content V path : String) :
    (set_version .real st content V path).2.sink = st.sink := by
  rw [set_version]
  cases parseJson content with
  | none => rfl
  | some j => cases j <;> simp [fsWrite]

/-- A successful real-mode `set_version` persists exactly its returned
content at the path. -/
theorem set_version_real_files {st : FsState} {content V path out : String}
    (h : (set_version .real st content V path).1 = .ok out) :
    (set_version .real st content V path).2.files
      = writeFileMap st.files path out := by
  rw [set_version] at h ⊢
  cases hp : parseJson content with
  | none => rw [hp] at h; cases h
  | some j =>
    cases j <;> rw [hp] at h <;> simp at h ⊢ <;> try cases h
    rfl

theorem bumpPackageFiles_dryRun_files (paths : List String) :
    ∀ st V, (bumpPackageFiles .dryRun st V paths).2.files = st.files := by
  induction paths with
  | nil => intro st V; rfl
  | cons p rest ih =>
    intro st V
    rw [bumpPackageFiles]
    cases hr : readFileMap st.files p with
    | none => rfl
    | some content =>
      simp only []
      cases hsv : set_version .dryRun st content V p with
      | mk r st1 =>
        have hfiles : st1.files = st.files := by
          have := set_version_dryRun_files st content V p
          rw [hsv] at this
          exact this
        cases r with
        | ok out => simp only []; rw [ih st1 V, hfiles]
        | error e => simpa using hfiles

theorem bumpPackageFiles_dryRun_sink_grows (paths : List String) :
    ∀ st V, ∃ t, (bumpPackageFiles .dryRun st V paths).2.sink = st.sink ++ t := by
  induction paths with
  | nil => intro st V; exact ⟨[], by simp [bumpPackageFiles]⟩
  | cons p rest ih =>
    intro st V
    rw [bumpPackageFiles]
    cases hr : readFileMap st.files p with
    | none => exact ⟨[], by simp⟩
    | some content =>
      simp only []
      cases hsv : set_version .dryRun st content V p with
      | mk r st1 =>
        cases r with
        | ok out =>
          obtain ⟨t, ht⟩ := ih st1 V
          have hsink : st1.sink = st.sink
              ++ ["would change " ++ p ++ " to version " ++ V] := by
            have h1 : (set_version .dryRun st content V p).1 = .ok out := by rw [hsv]
            have h2 := set_version_dryRun_sink h1
            rw [hsv] at h2
            exact h2
          exact ⟨_, by simp only []; rw [ht, hsink, List.append_assoc]⟩
        | error e =>
          have hst : st1 = st := by
            have h1 : (set_version .dryRun st content V p).1 = .error e := by rw [hsv]
            have h2 := set_version_error_state h1
            rw [hsv] at h2
            exact h2
          exact ⟨[], by simp [hst]⟩

theorem bumpPackageFiles_dryRun_sink_mem (paths : List String) :
    ∀ st V u st', bumpPackageFiles .dryRun st V paths = (.ok u, st') →
      ∀ p ∈ paths, ("would change " ++ p ++ " to version " ++ V) ∈ st'.sink := by
  induction paths with
  | nil => intro st V u st' _ p hp; cases hp
  | cons q rest ih =>
    intro st V u st' hrun p hp
    rw [bumpPackageFiles] at hrun
    cases hr : readFileMap st.files q with
    | none => rw [hr] at hrun; cases hrun
    | some content =>
      rw [hr] at hrun
      simp only [] at hrun
      cases hsv : set_version .dryRun st content V q with
      | mk r st1 =>
        rw [hsv] at hrun
        cases r with
        | error e => cases hrun
        | ok out =>
          simp only [] at hrun
          have hsink : st1.sink = st.sink
              ++ ["would change " ++ q ++ " to version " ++ V] := by
            have h1 : (set_version .dryRun st content V q).1 = .ok out := by rw [hsv]
            have h2 := set_version_dryRun_sink h1
            rw [hsv] at h2
            exact h2
          rcases List.mem_cons.mp hp with hpq | hpr
          · subst hpq
            obtain ⟨t, ht⟩ := bumpPackageFiles_dryRun_sink_grows rest st1 V
            rw [hrun] at ht
            rw [ht, hsink]
            simp
          · exact ih st1 V u st' hrun p hpr

theorem bumpPackageFiles_real_frame (paths : List String) :
    ∀ st V q, q ∉ paths →
      readFileMap (bumpPackageFiles .real st V paths).2.files q
        = readFileMap st.files q := by
  induction paths with
  | nil => intro st V q _; rfl
  | cons p rest ih =>
    intro st V q hq
    have hqp : q ≠ p := fun h => hq (by simp [h])
    have hqrest : q ∉ rest := fun h => hq (by simp [h])
    rw [bumpPackageFiles]
    cases hr : readFileMap st.files p with
    | none => rfl
    | some content =>
      simp only []
      cases hsv : set_version .real st content V p with
      | mk r st1 =>
        cases r with
        | ok out =>
          simp only []
          rw [ih st1 V q hqrest]
          have hfiles : st1.files = writeFileMap st.files p out := by
            have h1 : (set_version .real st content V p).1 = .ok out := by rw [hsv]
            have h2 := set_version_real_files h1
            rw [hsv] at h2
            exact h2
          rw [hfiles, readFileMap_writeFileMap, if_neg hqp]
        | error e =>
          have hst : st1 = st := by
            have h1 : (set_version .real st content V p).1 = .error e := by rw [hsv]
            have h2 := set_version_error_state h1
            rw [hsv] at h2
            exact h2
          simpa using congrArg (fun s => readFileMap s.files q) hst

theorem bumpPackageFiles_real_ok (paths : List String) :
    ∀ st V u st', bumpPackageFiles .real st V paths = (.ok u, st') →
      ∀ p ∈ paths, ∃ c, readFileMap st'.files p = some c ∧ get_version c p = .ok V := by
  induction paths with
  | nil => intro st V u st' _ p hp; cases hp
  | cons q rest ih =>
    intro st V u st' hrun p hp
    rw [bumpPackageFiles] at hrun
    cases hr : readFileMap st.files q with
    | none => rw [hr] at hrun; cases hrun
    | some content =>
      rw [hr] at hrun
      simp only [] at hrun
      cases hsv : set_version .real st content V q with
      | mk r st1 =>
        rw [hsv] at hrun
        cases r with
        | error e => cases hrun
        | ok out =>
          simp only [] at hrun
          have hget : get_version out q = .ok V := by
            have h1 : (set_version .real st content V q).1 = .ok out := by rw [hsv]
            exact get_version_of_set_version h1
          have hfiles : st1.files = writeFileMap st.files q out := by
            have h1 : (set_version .real st content V q).1 = .ok out := by rw [hsv]
            have h2 := set_version_real_files h1
            rw [hsv] at h2
            exact h2
          rcases List.mem_cons.mp hp with hpq | hpr
          · subst hpq
            by_cases hin : p ∈ rest
            · exact ih st1 V u st' hrun p hin
            · refine ⟨out, ?_, hget⟩
              have := bumpPackageFiles_real_frame rest st1 V p hin
              rw [hrun] at this
              rw [this, hfiles, readFileMap_writeFileMap, if_pos rfl]
          · exact ih st1 V u st' hrun p hpr

theorem bump_version_dryRun_files (st : FsState) (paths : List String) (V : String) :
    (bump_version .dryRun st paths V).2.files = st.files := by
  rw [bump_version]
  cases readVersions st.files paths with
  | error e => rfl
  | ok versions =>
    simp only []
    cases current_version versions with
    | error e => rfl
    | ok cv =>
      simp only []
      cases hb : bumpPackageFiles .dryRun st V paths with
      | mk r st' =>
        have hbf := bumpPackageFiles_dryRun_files paths st V
        rw [hb] at hbf
        cases r <;> simpa using hbf

theorem bump_version_ok_inv {mode : RunMode} {st : FsState} {paths : List String}
    {V : String} {u : Unit} {st' : FsState}
    (h : bump_version mode st paths V = (.ok u, st')) :
    bumpPackageFiles mode st V paths = (.ok u, st') := by
  rw [bump_version] at h
  cases hrv : readVersions st.files paths with
  | error e => rw [hrv] at h; simp at h
  | ok versions =>
    rw [hrv] at h
    simp only [] at h
    cases hcv : current_version versions with
    | error e => rw [hcv] at h; simp at h
    | ok cv =>
      rw [hcv] at h
      simp only [] at h
      cases hb : bumpPackageFiles mode st V paths with
      | mk r st2 =>
        rw [hb] at h
        cases r with
        | ok u2 =>
          simp only [] at h
          have hst : st2 = st' := congrArg Prod.snd h
          cases u
          cases u2
          rw [hst]
        | error e => simp at h

theorem ltv_major {a b : Version} (h : a.major < b.major) : ltv a b = true := by
  rw [ltv, if_pos (by omega : a.major ≠ b.major)]
  simpa using h

theorem ltv_minor {a b : Version} (h1 : a.major = b.major) (h2 : a.minor < b.minor) :
    ltv a b = true := by
  rw [ltv, if_neg (by omega : ¬ a.major ≠ b.major),
    if_pos (by omega : a.minor ≠ b.minor)]
  simpa using h2

theorem ltv_patch {a b : Version} (h1 : a.major = b.major) (h2 : a.minor = b.minor)
    (h3 : a.patch < b.patch) : ltv a b = true := by
  rw [ltv, if_neg (by omega : ¬ a.major ≠ b.major),
    if_neg (by omega : ¬ a.minor ≠ b.minor),
    if_pos (by omega : a.patch ≠ b.patch)]
  simpa using h3

theorem ltv_pre_strip {a b : Version} (h1 : a.major = b.major) (h2 : a.minor = b.minor)
    (h3 : a.patch = b.patch) {p : String × Nat} (ha : a.pre = some p) (hb : b.pre = none) :
    ltv a b = true := by
  rw [ltv, if_neg (by omega : ¬ a.major ≠ b.major),
    if_neg (by omega : ¬ a.minor ≠ b.minor),
    if_neg (by omega : ¬ a.patch ≠ b.patch), ha, hb]
  rfl

theorem ltv_pre_num {a b : Version} (h1 : a.major = b.major) (h2 : a.minor = b.minor)
    (h3 : a.patch = b.patch) {l : String} {n m : Nat}
    (ha : a.pre = some (l, n)) (hb : b.pre = some (l, m)) (hnm : n < m) :
    ltv a b = true := by
  rw [ltv, if_neg (by omega : ¬ a.major ≠ b.major),
    if_neg (by omega : ¬ a.minor ≠ b.minor),
    if_neg (by omega : ¬ a.patch ≠ b.patch), ha, hb, preLt, if_pos rfl]
  simpa using hnm

theorem currentVersionLoop_all_eq {rest : List String} {cur : String}
    (h : ∀ x ∈ rest, x = cur) : currentVersionLoop cur rest = .ok cur := by
  induction rest with
  | nil => rfl
  | cons v t ih =>
    rw [currentVersionLoop, if_pos (h v (by simp))]
    exact ih (fun x hx => h x (by simp [hx]))

theorem currentVersionLoop_diff {rest : List String} {cur : String}
    (h : ∃ x ∈ rest, x ≠ cur) :
    ∃ a b, currentVersionLoop cur rest = .error (.inconsistentVersions a b)
      ∧ a ≠ b ∧ a ∈ rest ∧ b = cur := by
  induction rest with
  | nil => obtain ⟨x, hx, _⟩ := h; cases hx
  | cons v t ih =>
    by_cases hv : v = cur
    · subst hv
      have : ∃ x ∈ t, x ≠ v := by
        obtain ⟨x, hx, hne⟩ := h
        rcases List.mem_cons.mp hx with rfl | hxt
        · exact absurd rfl hne
        · exact ⟨x, hxt, hne⟩
      obtain ⟨a, b, hloop, hne, ha, hb⟩ := ih this
      exact ⟨a, b, by rw [currentVersionLoop, if_pos rfl]; exact hloop, hne,
        by simp [ha], hb⟩
    · exact ⟨v, cur, by rw [currentVersionLoop, if_neg hv], hv, by simp, rfl⟩

theorem lookupF_none_iff (f : JFields) (k : String) :
    lookupF f k = none ↔ k ∉ keysF f := by
  induction f with
  | nil => simp [lookupF, keysF]
  | cons k' v t ih =>
    by_cases hk : k' = k
    · subst hk
      simp [lookupF, keysF]
    · simp [lookupF, keysF, hk, ih, Ne.symm hk]

theorem keysF_insertFields_sub {f : JFields} {k k' : String} {v : Json}
    (h : k' ∈ keysF (insertFields f k v)) : k' ∈ keysF f ∨ k' = k := by
  induction f with
  | nil => simpa [insertFields, keysF] using h
  | cons k2 v2 t ih =>
    by_cases hk : k2 = k
    · rw [insertFields, if_pos hk] at h
      left
      simpa [keysF] using h
    · rw [insertFields, if_neg hk] at h
      rw [keysF] at h
      rcases List.mem_cons.mp h with rfl | h2
      · left; simp [keysF]
      · rcases ih h2 with h3 | h3
        · left; simp [keysF, h3]
        · right; exact h3

theorem keysF_canonGo_not_mem (f : JFields) :
    ∀ acc k, k ∉ keysF f → k ∉ keysF acc → k ∉ keysF (canonGo acc f) := by
  induction f with
  | nil => intro acc k _ hacc; simpa [canonGo] using hacc
  | cons k2 v t ih =>
    intro acc k hf hacc
    rw [keysF] at hf
    have hk2 : k ≠ k2 := fun h => hf (by simp [h])
    have ht : k ∉ keysF t := fun h => hf (by simp [h])
    rw [canonGo]
    refine ih _ k ht ?_
    intro hmem
    rcases keysF_insertFields_sub hmem with h | h
    · exact hacc h
    · exact hk2 h

theorem keysF_canonObj_not_mem {f : JFields} {k : String} (h : k ∉ keysF f) :
    k ∉ keysF (canonObj f) :=
  keysF_canonGo_not_mem f .nil k h (by simp [keysF])

theorem keysF_filter_insert_version (m : JFields) (V : String) :
    (keysF (insertFields m "version" (.str V))).filter (fun k => k != "version")
      = (keysF m).filter (fun k => k != "version") := by
  by_cases hmem : "version" ∈ keysF m
  · rw [keysF_insertFields_mem hmem]
  · rw [keysF_insertFields_not_mem hmem]
    simp

/-! ## The claims -/

/-- C2: the claim states that every `bump` result is strictly greater
than its input under the §3 order.  This fails for `Pre(label)` with a
lexicographically smaller label on an already-pre-release version:
`1.0.0-rc.1` bumped with `Pre("alpha")` yields `1.0.0-alpha.0`, which is
strictly *smaller*. -/
theorem c2_counterexample :
    bump ⟨1, 0, 0, some ("rc", 1), none⟩ (.pre "alpha")
      = .ok ⟨1, 0, 0, some ("alpha", 0), none⟩
    ∧ ltv ⟨1, 0, 0, some ("rc", 1), none⟩ ⟨1, 0, 0, some ("alpha", 0), none⟩ = false
    ∧ ltv ⟨1, 0, 0, some ("alpha", 0), none⟩ ⟨1, 0, 0, some ("rc", 1), none⟩ = true :=
  ⟨rfl, rfl, rfl⟩

/-- C2 (amended): `bump` is strictly increasing for `Major`, `Minor` and
`Patch` (which also clear the pre-release component), for `Pre(L)` when
the current version has no pre-release or one with the same label, and
for `Release` on a pre-release version — every rule except a pre-release
label switch. -/
theorem c2_spec (v : Version) (L : String) :
    (∃ w, bump v .major = .ok w ∧ ltv v w = true ∧ w.pre = none)
    ∧ (∃ w, bump v .minor = .ok w ∧ ltv v w = true ∧ w.pre = none)
    ∧ (∃ w, bump v .patch = .ok w ∧ ltv v w = true ∧ w.pre = none)
    ∧ (v.pre = none → ∃ w, bump v (.pre L) = .ok w ∧ ltv v w = true)
    ∧ (∀ l n, v.pre = some (l, n) → ∃ w, bump v (.pre l) = .ok w ∧ ltv v w = true)
    ∧ (∀ p, v.pre = some p → ∃ w, bump v .release = .ok w ∧ ltv v w = true) := by
  refine ⟨⟨_, rfl, ltv_major (Nat.lt_succ_self _), rfl⟩,
    ⟨_, rfl, ltv_minor rfl (Nat.lt_succ_self _), rfl⟩,
    ⟨_, rfl, ltv_patch rfl rfl (Nat.lt_succ_self _), rfl⟩, ?_, ?_, ?_⟩
  · intro h
    refine ⟨⟨v.major, v.minor, v.patch + 1, some (L, 0), none⟩, ?_, ?_⟩
    · rw [bump, h]
    · exact ltv_patch rfl rfl (Nat.lt_succ_self _)
  · intro l n h
    refine ⟨⟨v.major, v.minor, v.patch, some (l, n + 1), none⟩, ?_, ?_⟩
    · rw [bump, h]
      simp
    · exact ltv_pre_num rfl rfl rfl h rfl (by omega)
  · intro p h
    refine ⟨⟨v.major, v.minor, v.patch, none, none⟩, ?_, ?_⟩
    · rw [bump, h]
    · exact ltv_pre_strip rfl rfl rfl h rfl

/-- Witness for C2 (amended) at `1.2.3-rc.4`. -/
theorem c2_spec_witness :
    (∃ w, bump ⟨1, 2, 3, some ("rc", 4), none⟩ Rule.major = .ok w
      ∧ ltv ⟨1, 2, 3, some ("rc", 4), none⟩ w = true ∧ w.pre = none)
    ∧ (∃ w, bump ⟨1, 2, 3, some ("rc", 4), none⟩ (Rule.pre "rc") = .ok w
      ∧ ltv ⟨1, 2, 3, some ("rc", 4), none⟩ w = true)
    ∧ (∃ w, bump ⟨1, 2, 3, some ("rc", 4), none⟩ Rule.release = .ok w
      ∧ ltv ⟨1, 2, 3, some ("rc", 4), none⟩ w = true) :=
  ⟨(c2_spec ⟨1, 2, 3, some ("rc", 4), none⟩ "beta").1,
    (c2_spec ⟨1, 2, 3, some ("rc", 4), none⟩ "beta").2.2.2.2.1 "rc" 4 rfl,
    (c2_spec ⟨1, 2, 3, some ("rc", 4), none⟩ "beta").2.2.2.2.2 ("rc", 4) rfl⟩

/-- C5: bumping with `Pre(L)` when the current version already carries
the pre-release `(L, n)` increments only the numeric suffix, leaving
`major.minor.patch` unchanged; in particular `1.1.0-rc.1 → 1.1.0-rc.2`,
as the end-to-end test `tests/prerelease.rs` requires. -/
theorem c5_spec (v : Version) (L : String) (n : Nat) (h : v.pre = some (L, n)) :
    bump v (.pre L) = .ok ⟨v.major, v.minor, v.patch, some (L, n + 1), none⟩
    ∧ bump ⟨1, 1, 0, some ("rc", 1), none⟩ (.pre "rc")
        = .ok ⟨1, 1, 0, some ("rc", 2), none⟩ := by
  constructor
  · rw [bump, h]
    simp
  · rfl

/-- Witness for C5 at `1.1.0-rc.1`. -/
theorem c5_spec_witness :
    bump ⟨1, 1, 0, some ("rc", 1), none⟩ (.pre "rc")
      = .ok ⟨1, 1, 0, some ("rc", 2), none⟩ :=
  (c5_spec ⟨1, 1, 0, some ("rc", 1), none⟩ "rc" 1 rfl).1

/-- C3: `current_version` fails with `NoCurrentVersion` on an empty file
set, returns the common version when all reported versions agree, and
fails with `InconsistentVersions` naming two distinct reported values
when any two differ — it never silently picks one. -/
theorem c3_spec (versions : List String) :
    (versions = [] → current_version versions = .error .noCurrentVersion)
    ∧ ((∀ a ∈ versions, ∀ b ∈ versions, a = b) → versions ≠ [] →
        ∃ v, current_version versions = .ok v ∧ v ∈ versions)
    ∧ ((∃ a ∈ versions, ∃ b ∈ versions, a ≠ b) →
        ∃ a b, current_version versions = .error (.inconsistentVersions a b)
          ∧ a ≠ b ∧ a ∈ versions ∧ b ∈ versions) := by
  refine ⟨fun h => by rw [h]; rfl, ?_, ?_⟩
  · intro hall hne
    match versions with
    | v :: rest =>
      refine ⟨v, ?_, by simp⟩
      rw [current_version]
      exact currentVersionLoop_all_eq
        (fun x hx => hall x (by simp [hx]) v (by simp))
  · intro hdiff
    match versions with
    | [] =>
      obtain ⟨a, ha, _⟩ := hdiff
      cases ha
    | v :: rest =>
      have : ∃ x ∈ rest, x ≠ v := by
        obtain ⟨a, ha, b, hb, hab⟩ := hdiff
        rcases List.mem_cons.mp ha with rfl | hat
        · rcases List.mem_cons.mp hb with rfl | hbt
          · exact absurd rfl hab
          · exact ⟨b, hbt, fun h => hab h.symm⟩
        · rcases List.mem_cons.mp hb with rfl | hbt
          · exact ⟨a, hat, hab⟩
          · by_cases hav : a = v
            · subst hav
              exact ⟨b, hbt, fun h => hab h.symm⟩
            · exact ⟨a, hat, hav⟩
      obtain ⟨a, b, hloop, hne, ha, hb⟩ := currentVersionLoop_diff this
      exact ⟨a, b, by rw [current_version]; exact hloop, hne, by simp [ha],
        by simp [hb]⟩

/-- Witness for C3: the spec's own examples — `{"1.0.0","1.0.0"}` agrees
on `1.0.0`, `{"1.0.0","1.0.1"}` fails naming both, and the empty set has
no current version. -/
theorem c3_spec_witness :
    current_version [] = .error .noCurrentVersion
    ∧ (∃ v, current_version ["1.0.0", "1.0.0"] = .ok v ∧ v ∈ ["1.0.0", "1.0.0"])
    ∧ (∃ a b, current_version ["1.0.0", "1.0.1"] = .error (.inconsistentVersions a b)
        ∧ a ≠ b ∧ a ∈ ["1.0.0", "1.0.1"] ∧ b ∈ ["1.0.0", "1.0.1"]) :=
  ⟨(c3_spec []).1 rfl,
    (c3_spec ["1.0.0", "1.0.0"]).2.1 (by decide) (by decide),
    (c3_spec ["1.0.0", "1.0.1"]).2.2 ⟨"1.0.0", by decide, "1.0.1", by decide, by decide⟩⟩

/-- C10: `set_version` is atomic on error — whenever it returns an error,
the threaded state (files and sink alike) is exactly the input state, and
the error is a `Deserialize` error naming the path; serialization
completes before the single write call is reached. -/
theorem c10_spec (mode : RunMode) (st : FsState) (content V path : String)
    (e : PJError) (h : (set_version mode st content V path).1 = .error e) :
    (set_version mode st content V path).2 = st
    ∧ ∃ src, e = .deserialize path src :=
  ⟨set_version_error_state h, set_version_error_shape h⟩

/-- Witness for C10: invalid content in dry-run mode leaves the state
untouched. -/
theorem c10_spec_witness :
    (set_version .dryRun ⟨[], []⟩ "not json" "1.2.3" "package.json").2 = ⟨[], []⟩
    ∧ ∃ src, PJError.deserialize "package.json" ParseErr.syntaxErr
        = .deserialize "package.json" src :=
  c10_spec .dryRun ⟨[], []⟩ "not json" "1.2.3" "package.json"
    (.deserialize "package.json" .syntaxErr) rfl

/-- C9: `set_version` does not require a pre-existing `version` property.
On an object with no top-level `version` key it succeeds and appends the
key with the new value at the end of the object, while `get_version`
fails with a `Deserialize` (missing field) error on the same content —
the two operations' preconditions differ. -/
theorem c9_spec (mode : RunMode) (st : FsState) (content V path : String)
    (f : JFields) (hparse : parseJson content = some (.obj f))
    (hnover : lookupF f "version" = none) :
    (∃ out, (set_version mode st content V path).1 = .ok out
      ∧ parseJson out = some (.obj (insertFields (canonObj f) "version" (.str V)))
      ∧ lookupF (insertFields (canonObj f) "version" (.str V)) "version" = some (.str V)
      ∧ keysF (insertFields (canonObj f) "version" (.str V))
          = keysF (canonObj f) ++ ["version"])
    ∧ get_version content path = .error (.deserialize path .missingField) := by
  have hnm : "version" ∉ keysF f := (lookupF_none_iff f "version").mp hnover
  have hnmc : "version" ∉ keysF (canonObj f) := keysF_canonObj_not_mem hnm
  constructor
  · refine ⟨_, ?_, parseJson_print _, lookupF_insertFields_self _ _ _,
      keysF_insertFields_not_mem hnmc _⟩
    rw [set_version, hparse]
  · rw [get_version, deserializePackage, hparse]
    simp only []
    rw [packageVersionFields_missing hnm]
    rfl

/-- Witness for C9 on `{"name": "tester"}`. -/
theorem c9_spec_witness :
    parseJson noVersionContent = some (.obj noVersionFields)
    ∧ lookupF noVersionFields "version" = none
    ∧ ((∃ out, (set_version .dryRun ⟨[], []⟩ noVersionContent "1.2.3" "package.json").1
          = .ok out
        ∧ parseJson out = some (.obj (insertFields (canonObj noVersionFields) "version"
            (.str "1.2.3")))
        ∧ lookupF (insertFields (canonObj noVersionFields) "version" (.str "1.2.3")) "version"
            = some (.str "1.2.3")
        ∧ keysF (insertFields (canonObj noVersionFields) "version" (.str "1.2.3"))
            = keysF (canonObj noVersionFields) ++ ["version"])
      ∧ get_version noVersionContent "package.json"
          = .error (.deserialize "package.json" .missingField)) :=
  ⟨by decide, rfl,
    c9_spec .dryRun ⟨[], []⟩ noVersionContent "1.2.3" "package.json"
      noVersionFields (by decide) rfl⟩

/-- C8: the claim says `get_version` fails with `Deserialize` exactly
when the content does not parse as a JSON object carrying a string-valued
top-level `version` property.  Both directions of the "exactly" fail.  A
duplicated `version` key parses as such an object (the `Map` keeps the
last value), yet the derived struct deserializer rejects the duplicate
field, so `get_version` errors.  And a one-element string array is not an
object at all, yet `deserialize_struct` takes its sequence path and
`get_version` succeeds. -/
theorem c8_counterexample :
    (get_version dupContent "package.json"
        = .error (.deserialize "package.json" .duplicateField)
      ∧ packageShape dupContent)
    ∧ (get_version seqContent "package.json" = .ok "1.2.3"
      ∧ ¬ ∃ f, parseJson seqContent = some (.obj f)) := by
  refine ⟨⟨rfl, dupFields, by decide, "2.0.0", by decide⟩, rfl, ?_⟩
  rintro ⟨f, hf⟩
  rw [show parseJson seqContent = some (.arr (.cons (.str "1.2.3") .nil)) from by decide] at hf
  cases hf

/-- C8 (amended): `get_version` succeeds exactly when the content parses
as a JSON object whose fields contain exactly one occurrence of the key
`version` with a string value, or as a one-element JSON array whose
single element is the version string (the derive's sequence path); every
failure is a `Deserialize` error that names the offending path, carries
the underlying parse error, and carries the fixed help text describing
the expected shape. -/
theorem c8_spec (content path : String) :
    (∀ v, get_version content path = .ok v ↔
      ((∃ f, parseJson content = some (.obj f) ∧ (keysF f).count "version" = 1
          ∧ lookupF f "version" = some (.str v))
        ∨ parseJson content = some (.arr (.cons (.str v) .nil))))
    ∧ (∀ e, get_version content path = .error e →
        ∃ src, e = .deserialize path src ∧ helpText e
          = "knope expects the package.json file to be an object with a top level `version` property") := by
  constructor
  · intro v
    constructor
    · intro h
      rw [get_version] at h
      cases hp : parseJson content with
      | none => rw [deserializePackage, hp] at h; cases h
      | some j =>
        cases j with
        | obj f =>
          rw [deserializePackage, hp] at h
          simp only [] at h
          cases hpv : packageVersionFields f none with
          | ok w =>
            rw [hpv] at h
            simp [Except.mapError] at h
            subst h
            exact Or.inl ⟨f, rfl, (packageVersionFields_ok_iff f w).mp hpv⟩
          | error e =>
            rw [hpv] at h
            simp [Except.mapError] at h
        | arr l =>
          rw [deserializePackage, hp] at h
          simp only [] at h
          cases hpv : packageVersionSeq l with
          | ok w =>
            rw [hpv] at h
            simp [Except.mapError] at h
            subst h
            have hl := (packageVersionSeq_ok_iff l w).mp hpv
            exact Or.inr (by rw [hl])
          | error e =>
            rw [hpv] at h
            simp [Except.mapError] at h
        | null => rw [deserializePackage, hp] at h; simp [Except.mapError] at h
        | bool b => rw [deserializePackage, hp] at h; simp [Except.mapError] at h
        | num n => rw [deserializePackage, hp] at h; simp [Except.mapError] at h
        | str s => rw [deserializePackage, hp] at h; simp [Except.mapError] at h
    · rintro (⟨f, hp, hc, hl⟩ | hp)
      · rw [get_version, deserializePackage, hp]
        simp only []
        rw [(packageVersionFields_ok_iff f v).mpr ⟨hc, hl⟩]
        rfl
      · rw [get_version, deserializePackage, hp]
        simp only []
        rw [(packageVersionSeq_ok_iff (.cons (.str v) .nil) v).mpr rfl]
        rfl
  · intro e he
    rw [get_version] at he
    cases hd : deserializePackage content with
    | ok w => rw [hd] at he; simp [Except.mapError] at he
    | error src =>
      rw [hd] at he
      simp [Except.mapError] at he
      exact ⟨src, he.symm, by rw [← he]; rfl⟩

/-- Witness for C8 (amended) on the test `package.json` content. -/
theorem c8_spec_witness :
    get_version pkgContent "package.json" = .ok "0.1.0-rc.0" :=
  ((c8_spec pkgContent "package.json").1 "0.1.0-rc.0").mpr
    (Or.inl ⟨pkgFields, by decide, by decide, by decide⟩)

/-- C1: for every content that parses as a JSON object and every version
string `V`, `set_version` succeeds and `get_version` recovers exactly
`V` from its output; every sibling key of the object (the deserialized
`Map`) keeps its value, and the sibling key order is unchanged. -/
theorem c1_spec (mode : RunMode) (st : FsState) (content V path : String)
    (f : JFields) (hparse : parseJson content = some (.obj f)) :
    ∃ out, (set_version mode st content V path).1 = .ok out
      ∧ get_version out path = .ok V
      ∧ parseJson out = some (.obj (insertFields (canonObj f) "version" (.str V)))
      ∧ (∀ k, k ≠ "version" →
          lookupF (insertFields (canonObj f) "version" (.str V)) k
            = lookupF (canonObj f) k)
      ∧ (keysF (insertFields (canonObj f) "version" (.str V))).filter
            (fun k => k != "version")
          = (keysF (canonObj f)).filter (fun k => k != "version") := by
  have hset : (set_version mode st content V path).1
      = .ok (String.mk (printVal 0 (.obj (insertFields (canonObj f) "version" (.str V))))) := by
    rw [set_version, hparse]
  refine ⟨_, hset, get_version_of_set_version hset, parseJson_print _, ?_,
    keysF_filter_insert_version _ V⟩
  intro k hk
  exact lookupF_insertFields_ne _ hk _

/-- Witness for C1 on the test `package.json` content and version
`1.2.3-rc.4` (the scenario of `test_set_version`). -/
theorem c1_spec_witness :
    parseJson pkgContent = some (.obj pkgFields)
    ∧ ∃ out, (set_version .dryRun ⟨[], []⟩ pkgContent "1.2.3-rc.4" "package.json").1
        = .ok out
      ∧ get_version out "package.json" = .ok "1.2.3-rc.4"
      ∧ parseJson out = some (.obj (insertFields (canonObj pkgFields) "version"
          (.str "1.2.3-rc.4")))
      ∧ (∀ k, k ≠ "version" →
          lookupF (insertFields (canonObj pkgFields) "version" (.str "1.2.3-rc.4")) k
            = lookupF (canonObj pkgFields) k)
      ∧ (keysF (insertFields (canonObj pkgFields) "version" (.str "1.2.3-rc.4"))).filter
            (fun k => k != "version")
          = (keysF (canonObj pkgFields)).filter (fun k => k != "version") :=
  ⟨by decide, c1_spec .dryRun ⟨[], []⟩ pkgContent "1.2.3-rc.4" "package.json"
    pkgFields (by decide)⟩

/-- C4: a bump step run in dry-run mode leaves every file's content
byte-identical (whatever the outcome), and on success the captured sink
contains, for every member file, a human-readable line naming the path
and the intended new version; in real mode, on success, every member
file's persisted content carries exactly the new version. -/
theorem c4_spec (st : FsState) (paths : List String) (V : String) :
    (bump_version .dryRun st paths V).2.files = st.files
    ∧ (∀ u st', bump_version .dryRun st paths V = (.ok u, st') →
        ∀ p ∈ paths, ("would change " ++ p ++ " to version " ++ V) ∈ st'.sink)
    ∧ (∀ u st', bump_version .real st paths V = (.ok u, st') →
        ∀ p ∈ paths, ∃ c, readFileMap st'.files p = some c ∧ get_version c p = .ok V) := by
  refine ⟨bump_version_dryRun_files st paths V, ?_, ?_⟩
  · intro u st' h
    exact bumpPackageFiles_dryRun_sink_mem paths st V u st' (bump_version_ok_inv h)
  · intro u st' h
    exact bumpPackageFiles_real_ok paths st V u st' (bump_version_ok_inv h)

/-- Witness for C4: bumping the test `package.json` to `1.2.3`. -/
theorem c4_spec_witness :
    (bump_version .dryRun c4State ["package.json"] "1.2.3").2.files = c4State.files
    ∧ ("would change " ++ "package.json" ++ " to version " ++ "1.2.3")
        ∈ (bump_version .dryRun c4State ["package.json"] "1.2.3").2.sink
    ∧ (∃ c, readFileMap (bump_version .real c4State ["package.json"] "1.2.3").2.files
          "package.json" = some c ∧ get_version c "package.json" = .ok "1.2.3") := by
  have h := c4_spec c4State ["package.json"] "1.2.3"
  refine ⟨h.1, ?_, ?_⟩
  · exact h.2.1 () (bump_version .dryRun c4State ["package.json"] "1.2.3").2
      (by rfl) "package.json" (by decide)
  · exact h.2.2 () (bump_version .real c4State ["package.json"] "1.2.3").2
      (by rfl) "package.json" (by decide)

/-- C6: the claim says the builder merges into a topmost section of the
same pre-release series, retaining its bullets and appending the new
entries beneath them.  Under that reading the updated changelog of the
`tests/prerelease.rs` scenario would carry the *old* bullet at line 4,
but the repository's test asserts the *new* bullet there — the builder
does not merge. -/
theorem c6_counterexample :
    sameSeries rcTarget rcSectionOld.version = true
    ∧ (renderDoc (addReleaseSpecMerge [rcSectionOld] rcTarget rcEntries))[4]?
        = some "- New feature in first RC"
    ∧ (renderDoc (addRelease [rcSectionOld] rcTarget rcEntries))[4]?
        = some "- New feature in second RC"
    ∧ ("- New feature in first RC" : String) ≠ "- New feature in second RC" :=
  ⟨rfl, rfl, rfl, by decide⟩

/-- C6 (amended): when the target matches the topmost section's
pre-release series the builder still inserts a *new* top section holding
only the new entries; the prior section is neither rewritten nor merged
and renders unchanged below, reproducing the assertions of
`tests/prerelease.rs`. -/
theorem c6_spec (doc : List ChangeSection) (target : Version)
    (entries : List ChangeEntry) (top : ChangeSection) (rest : List ChangeSection)
    (hdoc : doc = top :: rest) (hs : sameSeries target top.version = true) :
    addRelease doc target entries = newSection target entries :: top :: rest
    ∧ renderDoc (addRelease doc target entries)
        = renderSection (newSection target entries) ++ renderDoc doc
    ∧ (renderDoc (addRelease [rcSectionOld] rcTarget rcEntries))[0]?
        = some "## 1.1.0-rc.2"
    ∧ (renderDoc (addRelease [rcSectionOld] rcTarget rcEntries))[2]?
        = some "### Features"
    ∧ (renderDoc (addRelease [rcSectionOld] rcTarget rcEntries))[4]?
        = some "- New feature in second RC"
    ∧ (renderDoc (addRelease [rcSectionOld] rcTarget rcEntries)).drop 6
        = renderDoc [rcSectionOld] := by
  subst hdoc
  exact ⟨rfl, by simp [addRelease, renderDoc], rfl, rfl, rfl, rfl⟩

/-- Witness for C6 (amended) at the `tests/prerelease.rs` scenario. -/
theorem c6_spec_witness :
    addRelease [rcSectionOld] rcTarget rcEntries
        = newSection rcTarget rcEntries :: rcSectionOld :: []
    ∧ renderDoc (addRelease [rcSectionOld] rcTarget rcEntries)
        = renderSection (newSection rcTarget rcEntries) ++ renderDoc [rcSectionOld]
    ∧ (renderDoc (addRelease [rcSectionOld] rcTarget rcEntries))[0]?
        = some "## 1.1.0-rc.2"
    ∧ (renderDoc (addRelease [rcSectionOld] rcTarget rcEntries))[2]?
        = some "### Features"
    ∧ (renderDoc (addRelease [rcSectionOld] rcTarget rcEntries))[4]?
        = some "- New feature in second RC"
    ∧ (renderDoc (addRelease [rcSectionOld] rcTarget rcEntries)).drop 6
        = renderDoc [rcSectionOld] :=
  c6_spec [rcSectionOld] rcTarget rcEntries rcSectionOld [] rfl rfl

/-- C7: starting from stable `1.1.0`, a breaking commit under the
pre-release label `rc` resolves to `2.0.0-rc.0`; the changelog gains a
new top section `## 2.0.0-rc.0` with a `### Breaking Changes` subsection
holding the new bullet, and the prior `## 1.1.0` section renders
unchanged below it — the scenario of
`tests/prerelease_after_normal_release.rs`. -/
theorem c7_spec :
    prepare_release ⟨1, 1, 0, none, none⟩ [stableSection] breakingEntries (some "rc")
      = .ok (⟨2, 0, 0, some ("rc", 0), none⟩,
          newSection ⟨2, 0, 0, some ("rc", 0), none⟩ breakingEntries :: [stableSection])
    ∧ versionToString ⟨2, 0, 0, some ("rc", 0), none⟩ = "2.0.0-rc.0"
    ∧ (renderDoc (newSection ⟨2, 0, 0, some ("rc", 0), none⟩ breakingEntries
        :: [stableSection]))[0]? = some "## 2.0.0-rc.0"
    ∧ (renderDoc (newSection ⟨2, 0, 0, some ("rc", 0), none⟩ breakingEntries
        :: [stableSection]))[2]? = some "### Breaking Changes"
    ∧ (renderDoc (newSection ⟨2, 0, 0, some ("rc", 0), none⟩ breakingEntries
        :: [stableSection]))[4]? = some "- Breaking feature in new RC"
    ∧ (renderDoc (newSection ⟨2, 0, 0, some ("rc", 0), none⟩ breakingEntries
        :: [stableSection])).drop 6 = renderDoc [stableSection]
    ∧ (renderDoc [stableSection])[0]? = some "## 1.1.0" :=
  ⟨rfl, rfl, rfl, rfl, rfl, rfl, rfl⟩

end Knope
